import Mathlib

/-!
Shallow embedding of the polars IE-Join kernel
(`crates/polars-ops/src/frame/join/iejoin/mod.rs`).

Numeric values are embedded as `Int` (one numeric physical type under its
total order), `IdxSize` as `Nat`, `i64` row indices as `Int` (no overflow is
reachable for realistic heights), columns with validity as `List (Option Int)`.
-/

/-- The four inequality operators, from `InequalityOperator` in the source. -/
inductive InequalityOperator
  | Lt
  | LtEq
  | Gt
  | GtEq
deriving DecidableEq, Repr, Inhabited

/-- `InequalityOperator::is_strict` from the source. -/
def InequalityOperator.is_strict : InequalityOperator → Bool
  | .Lt => true
  | .Gt => true
  | _ => false

/-- Semantics of an inequality operator on values (used by the oracle and in
claim statements; the source applies the operator via its sort orders). -/
def InequalityOperator.apply : InequalityOperator → Int → Int → Bool
  | .Lt, a, b => a < b
  | .LtEq, a, b => a ≤ b
  | .Gt, a, b => b < a
  | .GtEq, a, b => b ≤ a

/-- Modelled from the spec: the `FilteredBitArray` component (its source file
`filtered_bit_array.rs` is not among the provided sources; only callers are).
A packed bit vector of length n, all bits initially clear. We embed it as a
`List Bool`. `from_len_zeroed n` allocates n clear bits. -/
def FilteredBitArray.from_len_zeroed (n : Nat) : List Bool :=
  List.replicate n false

/-- Modelled from the spec: `FilteredBitArray::set_bit` sets bit `i`. -/
def set_bit (bits : List Bool) (i : Nat) : List Bool :=
  bits.set i true

/-- Modelled from the spec: the enumeration underlying
`FilteredBitArray::on_set_bits_from start f`: every set bit index in
`[start, n)` in ascending order. The callback style of the source becomes a
fold over this list. -/
def setBitsFrom (bits : List Bool) (start : Nat) : List Nat :=
  (List.range bits.length).filter (fun i => decide (start ≤ i) && bits.getD i false)

/-- `L1Item` from the source: 1-based index for LHS entries, or -1-based
index for RHS entries, together with the x value. -/
structure L1Item where
  row_index : Int
  value : Int
deriving DecidableEq, Repr, Inhabited

/-- Modelled from the spec: `partition_point_exponential` from
`polars_utils::binary_search` (not among the provided sources): the partition
point of a predicate that holds on a prefix of the slice, i.e. the length of
the maximal true prefix. -/
def partition_point {α : Type} (p : α → Bool) (l : List α) : Nat :=
  (l.takeWhile p).length

/-- `find_search_start_index` from the source. -/
def find_search_start_index (l1_array : List L1Item) (index : Nat)
    (operator : InequalityOperator) : Nat :=
  let sub_l1 := l1_array.drop index
  let value := (l1_array.getD index default).value
  match operator with
  | .Gt => partition_point (fun a => decide (value ≤ a.value)) sub_l1 + index
  | .Lt => partition_point (fun a => decide (a.value ≤ value)) sub_l1 + index
  | .GtEq => partition_point (fun a => decide (value < a.value)) sub_l1 + index
  | .LtEq => partition_point (fun a => decide (a.value < value)) sub_l1 + index

/-- `find_matches_in_l1` from the source. The two `&mut Vec<IdxSize>`
parameters and the returned match count become an explicit triple
(left_row_ids, right_row_ids, match_count). The `as IdxSize` casts become
`Int.toNat`. -/
def find_matches_in_l1 (l1_array : List L1Item) (l1_index : Nat) (row_index : Int)
    (bit_array : List Bool) (op1 : InequalityOperator)
    (left_row_ids right_row_ids : List Nat) : List Nat × List Nat × Int :=
  let start_index := find_search_start_index l1_array l1_index op1
  (setBitsFrom bit_array start_index).foldl
    (fun acc b =>
      let right_row_index := (l1_array.getD b default).row_index
      (acc.1 ++ [(row_index - 1).toNat],
       acc.2.1 ++ [(-right_row_index).toNat - 1],
       acc.2.2 + 1))
    (left_row_ids, right_row_ids, 0)

/-- `L1Array::process_entry` from the source. The mutable bit array joins the
result tuple: (bit_array, left_row_ids, right_row_ids, match_count). -/
def process_entry (l1 : List L1Item) (l1_index : Nat) (bit_array : List Bool)
    (op1 : InequalityOperator) (left_row_ids right_row_ids : List Nat) :
    List Bool × List Nat × List Nat × Int :=
  let row_index := (l1.getD l1_index default).row_index
  if 0 < row_index then
    let r := find_matches_in_l1 l1 l1_index row_index bit_array op1 left_row_ids right_row_ids
    (bit_array, r.1, r.2.1, r.2.2)
  else
    (set_bit bit_array l1_index, left_row_ids, right_row_ids, 0)

/-- `L1Array::process_lhs_entry` from the source (bit array is read-only). -/
def process_lhs_entry (l1 : List L1Item) (l1_index : Nat) (bit_array : List Bool)
    (op1 : InequalityOperator) (left_row_ids right_row_ids : List Nat) :
    List Nat × List Nat × Int :=
  let row_index := (l1.getD l1_index default).row_index
  if 0 < row_index then
    find_matches_in_l1 l1 l1_index row_index bit_array op1 left_row_ids right_row_ids
  else
    (left_row_ids, right_row_ids, 0)

/-- `L1Array::mark_visited` from the source: set the bit only for RHS
entries. -/
def mark_visited (l1 : List L1Item) (index : Nat) (bit_array : List Bool) :
    List Bool :=
  if 0 < (l1.getD index default).row_index then bit_array
  else set_bit bit_array index

/-- `build_l1_array` from the source: `values` is the (rechunked) backing
buffer of x, `order` the null-free L1 permutation, `right_df_offset` the
left height. -/
def build_l1_array (values : List Int) (order : List Nat)
    (right_df_offset : Nat) : List L1Item :=
  order.map fun index =>
    { row_index :=
        if index < right_df_offset then (index : Int) + 1
        else -((index - right_df_offset : Nat) : Int) - 1,
      value := values.getD index 0 }

/-- The strict-`op2` loop over `l2_order` inside `ie_join_impl_t` from the
source: process each entry, break once `match_count` reaches `slice_end`.
The loop state (bit array, the two output vectors, match count) is passed
explicitly. -/
def traverse_l2_strict (l1_array : List L1Item) (op1 : InequalityOperator)
    (slice_end : Option Int) :
    List Nat → List Bool → List Nat → List Nat → Int → List Nat × List Nat
  | [], _, left_row_idx, right_row_idx, _ => (left_row_idx, right_row_idx)
  | p :: rest, bit_array, left_row_idx, right_row_idx, match_count =>
    let r := process_entry l1_array p bit_array op1 left_row_idx right_row_idx
    let match_count := match_count + r.2.2.2
    if match slice_end with
       | some e => decide (e ≤ match_count)
       | none => false then
      (r.2.1, r.2.2.1)
    else
      traverse_l2_strict l1_array op1 slice_end rest r.1 r.2.1 r.2.2.1 match_count

/-- The run-flush loop `for j in run_start..stop` inside
`traverse_l2_array_non_strict` from the source: call `process_lhs_entry` on
`order[j]` for each j, accumulating the two output vectors and the number of
matches emitted by this flush. -/
def flush_run (order : List Nat) (l1_array : List L1Item)
    (op1 : InequalityOperator) (bit_array : List Bool) (run_start stop : Nat)
    (left_row_idx right_row_idx : List Nat) : List Nat × List Nat × Int :=
  (List.range' run_start (stop - run_start)).foldl
    (fun acc j =>
      let p := order.getD j 0
      let r := process_lhs_entry l1_array p bit_array op1 acc.1 acc.2.1
      (r.1, r.2.1, acc.2.2 + r.2.2))
    (left_row_idx, right_row_idx, 0)

/-- The main loop of `traverse_l2_array_non_strict` from the source,
recursing over the remaining suffix of `order`; `i` is the current position,
`run_start` the start of the current run of equal y values, `prev_value` the
previous y value. On the run boundary the previous run is flushed and the
early slice exit checked; every position is then marked visited; after the
loop the final run is flushed. -/
def traverse_l2_non_strict_go (yvals : List Int) (order : List Nat)
    (l1_array : List L1Item) (op1 : InequalityOperator) (slice_end : Option Int) :
    List Nat → Nat → Nat → Int → List Bool → List Nat → List Nat → Int →
    List Nat × List Nat
  | [], _, run_start, _, bit_array, left_row_idx, right_row_idx, _ =>
    let r := flush_run order l1_array op1 bit_array run_start order.length
      left_row_idx right_row_idx
    (r.1, r.2.1)
  | l1_index :: rest, i, run_start, prev_value, bit_array, left_row_idx,
      right_row_idx, match_count =>
    let value := yvals.getD l1_index 0
    if 0 < i ∧ value ≠ prev_value then
      let r := flush_run order l1_array op1 bit_array run_start i
        left_row_idx right_row_idx
      let match_count := match_count + r.2.2
      if match slice_end with
         | some e => decide (e ≤ match_count)
         | none => false then
        (r.1, r.2.1)
      else
        traverse_l2_non_strict_go yvals order l1_array op1 slice_end rest
          (i + 1) i value (mark_visited l1_array l1_index bit_array)
          r.1 r.2.1 match_count
    else
      traverse_l2_non_strict_go yvals order l1_array op1 slice_end rest
        (i + 1) run_start value (mark_visited l1_array l1_index bit_array)
        left_row_idx right_row_idx match_count

/-- `traverse_l2_array_non_strict` from the source: `yvals` is the backing
buffer of the y values in L1 order; `order` is the L2 permutation. The
initial `prev_value` is `Ty::Native::default()`, i.e. 0. -/
def traverse_l2_array_non_strict (yvals : List Int) (order : List Nat)
    (l1_array : List L1Item) (op1 : InequalityOperator) (slice_end : Option Int)
    (bit_array : List Bool) (left_row_idx right_row_idx : List Nat) :
    List Nat × List Nat :=
  traverse_l2_non_strict_go yvals order l1_array op1 slice_end order 0 0 0
    bit_array left_row_idx right_row_idx 0

/-- `i64::MAX`, the saturation bound of `saturating_add_unsigned`. -/
def i64_max : Int := 2 ^ 63 - 1

/-- `i64::saturating_add_unsigned` from the Rust standard library, for a
non-negative base and a `usize` addend. -/
def saturating_add_unsigned (offset : Int) (len : Nat) : Int :=
  min (offset + (len : Int)) i64_max

/-- `ie_join_impl_t` from the source: build the bit array and L1 array,
compute the early-exit bound from the slice, and dispatch on strictness of
`op2`. `x` and `y_ordered` are the value buffers of the concatenated x
column and of y gathered in L1 order. -/
def ie_join_impl_t (slice : Option (Int × Nat)) (l1_order : List Nat)
    (l2_order : List Nat) (op1 op2 : InequalityOperator)
    (x : List Int) (y_ordered : List Int) (left_height : Nat) :
    List Nat × List Nat :=
  let bit_array := FilteredBitArray.from_len_zeroed l1_order.length
  let slice_end : Option Int :=
    match slice with
    | some (offset, len) =>
      if 0 ≤ offset then some (saturating_add_unsigned offset len) else none
    | none => none
  let l1_array := build_l1_array x l1_order left_height
  if op2.is_strict then
    traverse_l2_strict l1_array op1 slice_end l2_order bit_array [] [] 0
  else
    traverse_l2_array_non_strict y_ordered l2_order l1_array op1 slice_end
      bit_array [] []

/-- Strict key comparison for the external sort: nulls first regardless of
direction (`nulls_last = false`), values ascending or descending. Modelled
from the spec: the sort primitive is an external collaborator. -/
def opt_lt (descending : Bool) : Option Int → Option Int → Bool
  | none, none => false
  | none, some _ => true
  | some _, none => false
  | some a, some b => if descending then decide (b < a) else decide (a < b)

/-- Total order on column positions used to model the stable `arg_sort`:
position i precedes position j when its key is strictly smaller, or the keys
tie and i ≤ j. Modelled from the spec: `maintain_order = true` makes the
sort stable, so ties keep their original index order. -/
def sortLe (descending : Bool) (col : List (Option Int)) (i j : Nat) : Bool :=
  opt_lt descending (col.getD i none) (col.getD j none) ||
    (!opt_lt descending (col.getD j none) (col.getD i none) && decide (i ≤ j))

/-- Modelled from the spec: the external stable `arg_sort` primitive with
`maintain_order = true` and `nulls_last = false`: the permutation of
`0..col.length` sorted by the key with ties broken by original position. -/
def arg_sort (descending : Bool) (col : List (Option Int)) : List Nat :=
  List.insertionSort (fun i j => sortLe descending col i j = true)
    (List.range col.length)

/-- `Series::null_count`: the number of null entries of a column. -/
def null_count (col : List (Option Int)) : Nat :=
  col.countP (fun v => v.isNone)

/-- Modelled from the spec: the dataframe runtime's `slice(offset, len)`
convention on index vectors: a non-negative offset counts from the start, a
negative offset counts back from the end, and `len` is clamped to the
remaining length. -/
def series_slice {α : Type} (l : List α) (offset : Int) (len : Nat) : List α :=
  let start := if 0 ≤ offset then offset.toNat
    else ((l.length : Int) + offset).toNat
  (l.drop start).take len

/-- The values backing buffer of a column: null slots hold an unspecified
value, embedded as 0; the kernel never reads them through the null-free
orders. -/
def values_buffer (col : List (Option Int)) : List Int :=
  col.map (fun v => v.getD 0)

/-- `l1_descending` from the driver: descending iff `op1` is `>` or `>=`. -/
def l1_descending (op1 : InequalityOperator) : Bool :=
  match op1 with
  | .Gt => true
  | .GtEq => true
  | _ => false

/-- `l2_descending` from the driver: descending iff `op2` is `<` or `<=`. -/
def l2_descending (op2 : InequalityOperator) : Bool :=
  match op2 with
  | .Lt => true
  | .LtEq => true
  | _ => false

/-- The `ComputeError` message for a left-side arity failure. -/
def left_arity_msg : String :=
  "IEJoin requires exactly two expressions from the left DataFrame"

/-- The `ComputeError` message for a right-side arity failure. -/
def right_arity_msg : String :=
  "IEJoin requires exactly two expressions from the right DataFrame"

/-- The order-computation and kernel part of the `iejoin` driver, after
validation: concatenate the axes, compute the null-free `l1_order` and
`l2_order` with the stable sorts, run `ie_join_impl_t`, and apply the final
slice to the two row-index vectors. The final `take_unchecked` into the two
DataFrames and `_finish_join` are external collaborators; the pair of index
vectors determines the returned rows. -/
def iejoin_pipeline (left_height : Nat)
    (selected_left selected_right : List (List (Option Int)))
    (op1 op2 : InequalityOperator) (slice : Option (Int × Nat)) :
    List Nat × List Nat :=
  let x := selected_left.getD 0 [] ++ selected_right.getD 0 []
  let y := selected_left.getD 1 [] ++ selected_right.getD 1 []
  let l1_order := series_slice (arg_sort (l1_descending op1) x)
    (null_count x : Int) (x.length - null_count x)
  let y_ordered := l1_order.map (fun i => y.getD i none)
  let l2_order := series_slice (arg_sort (l2_descending op2) y_ordered)
    (null_count y_ordered : Int) (y_ordered.length - null_count y_ordered)
  let r := ie_join_impl_t slice l1_order l2_order op1 op2
    (values_buffer x) (values_buffer y_ordered) left_height
  match slice with
  | none => r
  | some (offset, len) =>
    (series_slice r.1 offset len, series_slice r.2 offset len)

/-- `iejoin` from the source, embedded down to the pair of row-index vectors
that the final take consumes: validate the arity of both selections, then
run the pipeline. -/
def iejoin (left_height _right_height : Nat)
    (selected_left selected_right : List (List (Option Int)))
    (op1 op2 : InequalityOperator) (slice : Option (Int × Nat)) :
    Except String (List Nat × List Nat) :=
  if selected_left.length ≠ 2 then .error left_arity_msg
  else if selected_right.length ≠ 2 then .error right_arity_msg
  else .ok (iejoin_pipeline left_height selected_left selected_right op1 op2 slice)

/-- The naive nested-loop oracle: all pairs (i, j) of non-null rows with
`xL[i] op1 xR[j]` and `yL[i] op2 yR[j]`, in row-major order. -/
def oracle_matches (xL yL xR yR : List (Option Int))
    (op1 op2 : InequalityOperator) : List (Nat × Nat) :=
  (List.range xL.length).flatMap (fun i =>
    (List.range xR.length).filterMap (fun j =>
      match xL.getD i none, yL.getD i none, xR.getD j none, yR.getD j none with
      | some xl, some yl, some xr, some yr =>
        if op1.apply xl xr && op2.apply yl yr then some (i, j) else none
      | _, _, _, _ => none))

/-- Value-level ordering used to state that the L1 array is sorted in the
direction derived from `op1` (non-descending for `<`, `<=`, non-ascending
for `>`, `>=`). -/
def L1ValueLe (descending : Bool) (a b : Int) : Prop :=
  if descending then b ≤ a else a ≤ b

/-- The L1 array is sorted in the direction the driver derives from `op1`. -/
def L1Sorted (op1 : InequalityOperator) (l1 : List L1Item) : Prop :=
  l1.Pairwise (fun a b => L1ValueLe (l1_descending op1) a.value b.value)

/-- The effect of one L2 step on the bit array: `process_entry` (strict) and
`mark_visited` (non-strict) both set bit `p` exactly when the L1 entry there
is from the right-hand side. -/
def stepBits (l1 : List L1Item) (p : Nat) (bits : List Bool) : List Bool :=
  if 0 < (l1.getD p default).row_index then bits else set_bit bits p

/-- The (left, right) row pairs emitted by one `find_matches_in_l1` call
with left row id taken from `ri`. -/
def fmPairs (l1 : List L1Item) (i : Nat) (ri : Int) (bits : List Bool)
    (op1 : InequalityOperator) : List (Nat × Nat) :=
  (setBitsFrom bits (find_search_start_index l1 i op1)).map
    (fun b => ((ri - 1).toNat, (-(l1.getD b default).row_index).toNat - 1))

/-- The (left, right) row pairs emitted when the L2 walk processes L1
position `p` against the currently visited bits: empty for right-hand-side
entries. -/
def entryPairs (l1 : List L1Item) (op1 : InequalityOperator) (bits : List Bool)
    (p : Nat) : List (Nat × Nat) :=
  if 0 < (l1.getD p default).row_index then
    fmPairs l1 p (l1.getD p default).row_index bits op1
  else []

/-- Invariant: every set bit of the visited bit array sits at an L1 index
whose entry is a right-hand-side row (negative `row_index`). -/
def BitsValid (l1 : List L1Item) (bits : List Bool) : Prop :=
  ∀ k, bits.getD k false = true → (l1.getD k default).row_index < 0

/-- The bit array after the L2 walk has stepped through the positions of
`P` (in order), starting from `bits`. -/
def processedBits (l1 : List L1Item) (P : List Nat) (bits : List Bool) :
    List Bool :=
  P.foldl (fun b p => stepBits l1 p b) bits

/-- The end (exclusive) of the run of equal y values containing L2 position
`t`: one past the last following position whose y value equals that at `t`. -/
def runEnd (yvals : List Int) (order : List Nat) (t : Nat) : Nat :=
  t + 1 + ((order.drop (t + 1)).takeWhile
    (fun p => decide (yvals.getD p 0 = yvals.getD (order.getD t 0) 0))).length

/- ------------------------------------------------------------------ -/
/- Helper lemmas                                                      -/
/- ------------------------------------------------------------------ -/

theorem bool_eq_false {b : Bool} (h : ¬ b = true) : b = false := by
  cases b
  · rfl
  · exact absurd rfl h

theorem opt_lt_irrefl (d : Bool) (a : Option Int) : opt_lt d a a = false := by
  cases a
  · rfl
  · cases d <;> simp [opt_lt]

theorem opt_lt_trans (d : Bool) (a b c : Option Int)
    (h1 : opt_lt d a b = true) (h2 : opt_lt d b c = true) :
    opt_lt d a c = true := by
  cases a <;> cases b <;> cases c <;> cases d <;>
    simp [opt_lt] at h1 h2 ⊢ <;> omega

theorem opt_lt_tie (d : Bool) (a b : Option Int)
    (h1 : opt_lt d a b = false) (h2 : opt_lt d b a = false) : a = b := by
  cases a <;> cases b <;> cases d <;>
    simp [opt_lt] at h1 h2 ⊢ <;> omega

theorem sortLe_total (d : Bool) (col : List (Option Int)) :
    ∀ i j : Nat, sortLe d col i j = true ∨ sortLe d col j i = true := by
  intro i j
  simp only [sortLe, Bool.or_eq_true, Bool.and_eq_true, Bool.not_eq_true',
    decide_eq_true_eq]
  by_cases h1 : opt_lt d (col.getD i none) (col.getD j none) = true
  · exact Or.inl (Or.inl h1)
  · by_cases h2 : opt_lt d (col.getD j none) (col.getD i none) = true
    · exact Or.inr (Or.inl h2)
    · rcases Nat.le_total i j with hij | hij
      · exact Or.inl (Or.inr ⟨bool_eq_false h2, hij⟩)
      · exact Or.inr (Or.inr ⟨bool_eq_false h1, hij⟩)

theorem sortLe_trans (d : Bool) (col : List (Option Int)) :
    ∀ i j k : Nat, sortLe d col i j = true → sortLe d col j k = true →
      sortLe d col i k = true := by
  intro i j k hij hjk
  simp only [sortLe, Bool.or_eq_true, Bool.and_eq_true, Bool.not_eq_true',
    decide_eq_true_eq] at hij hjk ⊢
  rcases hij with h1 | ⟨h1, h1'⟩
  · rcases hjk with h2 | ⟨h2, h2'⟩
    · exact Or.inl (opt_lt_trans d _ _ _ h1 h2)
    · by_cases h3 : opt_lt d (col.getD j none) (col.getD k none) = true
      · exact Or.inl (opt_lt_trans d _ _ _ h1 h3)
      · have hkeq : col.getD j none = col.getD k none :=
          opt_lt_tie d _ _ (bool_eq_false h3) h2
        exact Or.inl (hkeq ▸ h1)
  · rcases hjk with h2 | ⟨h2, h2'⟩
    · by_cases h3 : opt_lt d (col.getD i none) (col.getD j none) = true
      · exact Or.inl (opt_lt_trans d _ _ _ h3 h2)
      · have hkeq : col.getD i none = col.getD j none :=
          opt_lt_tie d _ _ (bool_eq_false h3) h1
        exact Or.inl (hkeq ▸ h2)
    · refine Or.inr ⟨?_, by omega⟩
      by_cases h3 : opt_lt d (col.getD k none) (col.getD i none) = true
      · exfalso
        by_cases h4 : opt_lt d (col.getD j none) (col.getD k none) = true
        · have := opt_lt_trans d _ _ _ h4 h3
          rw [h1] at this
          exact Bool.false_ne_true this
        · have hkeq : col.getD j none = col.getD k none :=
            opt_lt_tie d _ _ (bool_eq_false h4) h2
          rw [← hkeq] at h3
          rw [h1] at h3
          exact Bool.false_ne_true h3
      · exact bool_eq_false h3

theorem arg_sort_perm (d : Bool) (col : List (Option Int)) :
    List.Perm (arg_sort d col) (List.range col.length) :=
  List.perm_insertionSort _ _

theorem arg_sort_length (d : Bool) (col : List (Option Int)) :
    (arg_sort d col).length = col.length :=
  (arg_sort_perm d col).length_eq.trans (List.length_range _)

theorem arg_sort_nodup (d : Bool) (col : List (Option Int)) :
    (arg_sort d col).Nodup :=
  ((arg_sort_perm d col).nodup_iff).mpr (List.nodup_range _)

theorem arg_sort_mem (d : Bool) (col : List (Option Int)) (i : Nat) :
    i ∈ arg_sort d col ↔ i < col.length := by
  rw [(arg_sort_perm d col).mem_iff, List.mem_range]

theorem arg_sort_sorted (d : Bool) (col : List (Option Int)) :
    List.Sorted (fun i j => sortLe d col i j = true) (arg_sort d col) := by
  haveI : IsTotal Nat (fun i j => sortLe d col i j = true) :=
    ⟨sortLe_total d col⟩
  haveI : IsTrans Nat (fun i j => sortLe d col i j = true) :=
    ⟨sortLe_trans d col⟩
  exact List.sorted_insertionSort _ _

theorem countP_range_getD (col : List (Option Int)) (p : Option Int → Bool) :
    (List.range col.length).countP (fun i => p (col.getD i none))
      = col.countP p := by
  induction col with
  | nil => simp
  | cons a t ih =>
    rw [List.length_cons, List.range_succ_eq_map, List.countP_cons,
      List.countP_cons, List.countP_map]
    have he : ((fun i => p ((a :: t).getD i none)) ∘ Nat.succ)
        = fun i => p (t.getD i none) := rfl
    rw [he, ih]
    rfl

theorem arg_sort_countP_nulls (d : Bool) (col : List (Option Int)) :
    (arg_sort d col).countP (fun i => (col.getD i none).isNone)
      = null_count col := by
  rw [(arg_sort_perm d col).countP_eq]
  exact countP_range_getD col _

theorem arg_sort_sorted_get (d : Bool) (col : List (Option Int))
    (a b : Nat) (hab : a < b) (hb : b < (arg_sort d col).length) :
    sortLe d col ((arg_sort d col).getD a 0) ((arg_sort d col).getD b 0)
      = true := by
  have ha : a < (arg_sort d col).length := by omega
  rw [List.getD_eq_getElem _ _ ha, List.getD_eq_getElem _ _ hb]
  have := (arg_sort_sorted d col).rel_get_of_lt
    (a := ⟨a, ha⟩) (b := ⟨b, hb⟩) (by simpa using hab)
  simpa using this

theorem arg_sort_suffix_not_none (d : Bool) (col : List (Option Int)) :
    ∀ k, null_count col ≤ k → k < (arg_sort d col).length →
      (col.getD ((arg_sort d col).getD k 0) none).isNone = false := by
  intro k hC hk
  by_contra hbad0
  have hbad : (col.getD ((arg_sort d col).getD k 0) none).isNone = true := by
    cases h : (col.getD ((arg_sort d col).getD k 0) none).isNone
    · exact absurd h hbad0
    · rfl
  have hdown : ∀ a, a ≤ k →
      (col.getD ((arg_sort d col).getD a 0) none).isNone = true := by
    intro a ha
    rcases eq_or_lt_of_le ha with rfl | hlt
    · exact hbad
    · by_contra hgood0
      have hgood : (col.getD ((arg_sort d col).getD a 0) none).isNone
          = false := by
        cases h : (col.getD ((arg_sort d col).getD a 0) none).isNone
        · rfl
        · exact absurd h hgood0
      have hsle := arg_sort_sorted_get d col a k hlt hk
      simp only [sortLe] at hsle
      rcases hga : col.getD ((arg_sort d col).getD a 0) none with _ | v
      · rw [hga] at hgood
        simp at hgood
      · rcases hgk : col.getD ((arg_sort d col).getD k 0) none with _ | w
        · rw [hga, hgk] at hsle
          simp [opt_lt] at hsle
        · rw [hgk] at hbad
          simp at hbad
  have htake : ((arg_sort d col).take (k + 1)).countP
      (fun i => (col.getD i none).isNone) = k + 1 := by
    have hlen : ((arg_sort d col).take (k + 1)).length = k + 1 := by
      rw [List.length_take]
      omega
    have hc : ((arg_sort d col).take (k + 1)).countP
        (fun i => (col.getD i none).isNone)
        = ((arg_sort d col).take (k + 1)).length := by
      rw [List.countP_eq_length]
      intro x hx
      rw [List.mem_iff_getElem] at hx
      obtain ⟨a, ha, hax⟩ := hx
      have ha2 : a < k + 1 := by
        rw [List.length_take] at ha
        omega
      have ha3 : a < (arg_sort d col).length := by omega
      have : x = (arg_sort d col).getD a 0 := by
        rw [← hax, List.getElem_take, List.getD_eq_getElem _ _ ha3]
      rw [this]
      exact hdown a (by omega)
    rw [hlen] at hc
    exact hc
  have hle : ((arg_sort d col).take (k + 1)).countP
      (fun i => (col.getD i none).isNone)
      ≤ (arg_sort d col).countP (fun i => (col.getD i none).isNone) :=
    ((arg_sort d col).take_sublist (k + 1)).countP_le _
  rw [htake, arg_sort_countP_nulls] at hle
  omega

theorem arg_sort_prefix_none (d : Bool) (col : List (Option Int)) :
    ∀ a, a < null_count col →
      (col.getD ((arg_sort d col).getD a 0) none).isNone = true := by
  intro a ha
  have hCle : null_count col ≤ (arg_sort d col).length := by
    rw [arg_sort_length]
    exact List.countP_le_length _
  have hsplit : (arg_sort d col).countP (fun i => (col.getD i none).isNone)
      = ((arg_sort d col).take (null_count col)).countP
          (fun i => (col.getD i none).isNone)
        + ((arg_sort d col).drop (null_count col)).countP
          (fun i => (col.getD i none).isNone) := by
    rw [← List.countP_append, List.take_append_drop]
  have hdropzero : ((arg_sort d col).drop (null_count col)).countP
      (fun i => (col.getD i none).isNone) = 0 := by
    rw [List.countP_eq_zero]
    intro x hx
    rw [List.mem_iff_getElem] at hx
    obtain ⟨b, hb, hbx⟩ := hx
    have hb2 : null_count col + b < (arg_sort d col).length := by
      rw [List.length_drop] at hb
      omega
    have hxe : x = (arg_sort d col).getD (null_count col + b) 0 := by
      rw [← hbx, List.getElem_drop, List.getD_eq_getElem _ _ hb2]
    rw [hxe]
    simp only [Bool.not_eq_true]
    exact arg_sort_suffix_not_none d col (null_count col + b) (by omega) hb2
  have htakelen : ((arg_sort d col).take (null_count col)).length
      = null_count col := by
    rw [List.length_take]
    omega
  have htake : ((arg_sort d col).take (null_count col)).countP
      (fun i => (col.getD i none).isNone) = null_count col := by
    rw [arg_sort_countP_nulls] at hsplit
    omega
  have hall : ∀ x ∈ (arg_sort d col).take (null_count col),
      (col.getD x none).isNone = true :=
    List.countP_eq_length.mp (htake.trans htakelen.symm)
  have ha2 : a < (arg_sort d col).length := by omega
  have hmem : (arg_sort d col).getD a 0
      ∈ (arg_sort d col).take (null_count col) := by
    rw [List.mem_iff_getElem]
    refine ⟨a, by rw [List.length_take]; omega, ?_⟩
    rw [List.getElem_take, List.getD_eq_getElem _ _ ha2]
  exact hall _ hmem

theorem takeWhile_pred_true {α : Type} (p : α → Bool) (d : α) :
    ∀ (l : List α) (k : Nat), k < (l.takeWhile p).length → p (l.getD k d) = true := by
  intro l
  induction l with
  | nil => intro k hk; simp [List.takeWhile] at hk
  | cons a t ih =>
    intro k hk
    cases hpa : p a with
    | false => simp [List.takeWhile, hpa] at hk
    | true =>
      simp only [List.takeWhile, hpa] at hk
      cases k with
      | zero => simpa using hpa
      | succ m =>
        simp only [List.length_cons, Nat.add_lt_add_iff_right] at hk
        simpa using ih m hk

theorem takeWhile_pred_false {α : Type} (p : α → Bool) (d : α) :
    ∀ l : List α, (l.takeWhile p).length < l.length →
      p (l.getD (l.takeWhile p).length d) = false := by
  intro l
  induction l with
  | nil => intro h; simp at h
  | cons a t ih =>
    intro h
    cases hpa : p a with
    | false => simp [List.takeWhile, hpa]
    | true =>
      simp only [List.takeWhile, hpa, List.length_cons, Nat.add_lt_add_iff_right] at h ⊢
      simpa using ih h

theorem takeWhile_length_le {α : Type} (p : α → Bool) (l : List α) :
    (l.takeWhile p).length ≤ l.length := by
  induction l with
  | nil => simp
  | cons a t ih =>
    cases hpa : p a
    · simp [List.takeWhile, hpa]
    · simp [List.takeWhile, hpa]
      omega

theorem partition_point_spec {α : Type} (p : α → Bool) (l : List α) (d : α) :
    (∀ k, k < partition_point p l → p (l.getD k d) = true) ∧
    (partition_point p l < l.length → p (l.getD (partition_point p l) d) = false) ∧
    partition_point p l ≤ l.length :=
  ⟨fun k hk => takeWhile_pred_true p d l k hk,
   fun h => takeWhile_pred_false p d l h,
   takeWhile_length_le p l⟩

theorem getD_drop {α : Type} (l : List α) (d : α) :
    ∀ (i k : Nat), (l.drop i).getD k d = l.getD (i + k) d := by
  induction l with
  | nil => intro i k; simp
  | cons a t ih =>
    intro i k
    cases i with
    | zero => simp
    | succ m =>
      simp only [List.drop_succ_cons, ih m k]
      have : m + 1 + k = (m + k) + 1 := by omega
      rw [this]
      rfl

theorem length_set_bit (bits : List Bool) (i : Nat) :
    (set_bit bits i).length = bits.length := by
  simp [set_bit]

theorem getD_set_bit : ∀ (bits : List Bool) (i k : Nat),
    (set_bit bits i).getD k false
      = if k = i ∧ i < bits.length then true else bits.getD k false := by
  intro bits
  induction bits with
  | nil => intro i k; simp [set_bit]
  | cons b t ih =>
    intro i k
    cases i with
    | zero =>
      cases k with
      | zero => simp [set_bit]
      | succ m => simp [set_bit]
    | succ n =>
      cases k with
      | zero => simp [set_bit]
      | succ m =>
        have hstep : set_bit (b :: t) (n + 1) = b :: set_bit t n := by
          simp [set_bit]
        rw [hstep]
        simp only [List.getD_cons_succ, ih n m, List.length_cons]
        by_cases h : m = n ∧ n < t.length
        · rw [if_pos h, if_pos ⟨by omega, by omega⟩]
        · rw [if_neg h, if_neg (by omega)]

theorem mem_setBitsFrom (bits : List Bool) (start q : Nat) :
    q ∈ setBitsFrom bits start ↔
      start ≤ q ∧ q < bits.length ∧ bits.getD q false = true := by
  unfold setBitsFrom
  rw [List.mem_filter, List.mem_range]
  constructor
  · rintro ⟨h1, h2⟩
    simp only [Bool.and_eq_true, decide_eq_true_eq] at h2
    exact ⟨h2.1, h1, h2.2⟩
  · rintro ⟨h1, h2, h3⟩
    refine ⟨h2, ?_⟩
    simp only [Bool.and_eq_true, decide_eq_true_eq]
    exact ⟨h1, h3⟩

theorem emit_foldl (l1 : List L1Item) (ri : Int) :
    ∀ (L : List Nat) (lids rids : List Nat) (c : Int),
      L.foldl (fun acc b =>
        (acc.1 ++ [(ri - 1).toNat],
         acc.2.1 ++ [(-(l1.getD b default).row_index).toNat - 1],
         acc.2.2 + 1)) (lids, rids, c)
      = (lids ++ L.map (fun _ => (ri - 1).toNat),
         rids ++ L.map (fun b => (-(l1.getD b default).row_index).toNat - 1),
         c + L.length) := by
  intro L
  induction L with
  | nil => intro lids rids c; simp
  | cons b t ih =>
    intro lids rids c
    simp only [List.foldl_cons, ih, List.map_cons, List.length_cons]
    refine congrArg₂ _ ?_ (congrArg₂ _ ?_ ?_)
    · simp
    · simp
    · push_cast
      omega

theorem find_matches_in_l1_eq (l1 : List L1Item) (i : Nat) (ri : Int)
    (bits : List Bool) (op1 : InequalityOperator) (lids rids : List Nat) :
    find_matches_in_l1 l1 i ri bits op1 lids rids
      = (lids ++ (fmPairs l1 i ri bits op1).map Prod.fst,
         rids ++ (fmPairs l1 i ri bits op1).map Prod.snd,
         ((fmPairs l1 i ri bits op1).length : Int)) := by
  unfold find_matches_in_l1 fmPairs
  rw [emit_foldl]
  refine congrArg₂ _ ?_ (congrArg₂ _ ?_ ?_)
  · rw [List.map_map]
    rfl
  · rw [List.map_map]
    rfl
  · rw [List.length_map]
    omega

theorem process_entry_eq (l1 : List L1Item) (p : Nat) (bits : List Bool)
    (op1 : InequalityOperator) (lids rids : List Nat) :
    process_entry l1 p bits op1 lids rids
      = (stepBits l1 p bits,
         lids ++ (entryPairs l1 op1 bits p).map Prod.fst,
         rids ++ (entryPairs l1 op1 bits p).map Prod.snd,
         ((entryPairs l1 op1 bits p).length : Int)) := by
  unfold process_entry stepBits entryPairs
  by_cases h : 0 < (l1.getD p default).row_index
  · rw [if_pos h, if_pos h, if_pos h, find_matches_in_l1_eq]
  · rw [if_neg h, if_neg h, if_neg h]
    simp

theorem process_lhs_entry_eq (l1 : List L1Item) (p : Nat) (bits : List Bool)
    (op1 : InequalityOperator) (lids rids : List Nat) :
    process_lhs_entry l1 p bits op1 lids rids
      = (lids ++ (entryPairs l1 op1 bits p).map Prod.fst,
         rids ++ (entryPairs l1 op1 bits p).map Prod.snd,
         ((entryPairs l1 op1 bits p).length : Int)) := by
  unfold process_lhs_entry entryPairs
  by_cases h : 0 < (l1.getD p default).row_index
  · rw [if_pos h, if_pos h, find_matches_in_l1_eq]
  · rw [if_neg h, if_neg h]
    simp

theorem traverse_l2_strict_ext (l1 : List L1Item) (op1 : InequalityOperator)
    (se : Option Int) :
    ∀ (rest : List Nat) (bits : List Bool) (lids rids : List Nat) (cnt : Int),
      ∃ E : List (Nat × Nat),
        traverse_l2_strict l1 op1 se rest bits lids rids cnt
          = (lids ++ E.map Prod.fst, rids ++ E.map Prod.snd) := by
  intro rest
  induction rest with
  | nil =>
    intro bits lids rids cnt
    exact ⟨[], by simp [traverse_l2_strict]⟩
  | cons p t ih =>
    intro bits lids rids cnt
    simp only [traverse_l2_strict, process_entry_eq]
    split
    · exact ⟨entryPairs l1 op1 bits p, rfl⟩
    · obtain ⟨E, hE⟩ := ih (stepBits l1 p bits)
        (lids ++ (entryPairs l1 op1 bits p).map Prod.fst)
        (rids ++ (entryPairs l1 op1 bits p).map Prod.snd)
        (cnt + ((entryPairs l1 op1 bits p).length : Int))
      rw [hE]
      exact ⟨entryPairs l1 op1 bits p ++ E, by simp [List.append_assoc]⟩

theorem flush_foldl (order : List Nat) (l1 : List L1Item)
    (op1 : InequalityOperator) (bits : List Bool) :
    ∀ (J : List Nat) (lids rids : List Nat) (c : Int),
      J.foldl (fun acc j =>
        let p := order.getD j 0
        let r := process_lhs_entry l1 p bits op1 acc.1 acc.2.1
        (r.1, r.2.1, acc.2.2 + r.2.2)) (lids, rids, c)
      = (lids ++ (J.flatMap
            (fun j => entryPairs l1 op1 bits (order.getD j 0))).map Prod.fst,
         rids ++ (J.flatMap
            (fun j => entryPairs l1 op1 bits (order.getD j 0))).map Prod.snd,
         c + ((J.flatMap
            (fun j => entryPairs l1 op1 bits (order.getD j 0))).length : Int)) := by
  intro J
  induction J with
  | nil => intro lids rids c; simp
  | cons j t ih =>
    intro lids rids c
    rw [List.foldl_cons]
    have hstep : (let p := order.getD j 0
        let r := process_lhs_entry l1 p bits op1 (lids, rids, c).1 (lids, rids, c).2.1
        (r.1, r.2.1, (lids, rids, c).2.2 + r.2.2))
        = (lids ++ (entryPairs l1 op1 bits (order.getD j 0)).map Prod.fst,
           rids ++ (entryPairs l1 op1 bits (order.getD j 0)).map Prod.snd,
           c + ((entryPairs l1 op1 bits (order.getD j 0)).length : Int)) := by
      simp only [process_lhs_entry_eq]
    rw [hstep, ih, List.flatMap_cons]
    refine congrArg₂ _ ?_ (congrArg₂ _ ?_ ?_)
    · simp [List.append_assoc]
    · simp [List.append_assoc]
    · simp only [List.length_append]
      push_cast
      omega

theorem flush_run_eq (order : List Nat) (l1 : List L1Item)
    (op1 : InequalityOperator) (bits : List Bool) (run_start stop : Nat)
    (lids rids : List Nat) :
    flush_run order l1 op1 bits run_start stop lids rids
      = (lids ++ ((List.range' run_start (stop - run_start)).flatMap
            (fun j => entryPairs l1 op1 bits (order.getD j 0))).map Prod.fst,
         rids ++ ((List.range' run_start (stop - run_start)).flatMap
            (fun j => entryPairs l1 op1 bits (order.getD j 0))).map Prod.snd,
         (((List.range' run_start (stop - run_start)).flatMap
            (fun j => entryPairs l1 op1 bits (order.getD j 0))).length : Int)) := by
  unfold flush_run
  rw [flush_foldl]
  simp

theorem traverse_l2_non_strict_go_ext (yvals : List Int) (order : List Nat)
    (l1 : List L1Item) (op1 : InequalityOperator) (se : Option Int) :
    ∀ (rest : List Nat) (i run_start : Nat) (prev : Int) (bits : List Bool)
      (lids rids : List Nat) (cnt : Int),
      ∃ E : List (Nat × Nat),
        traverse_l2_non_strict_go yvals order l1 op1 se rest i run_start prev
            bits lids rids cnt
          = (lids ++ E.map Prod.fst, rids ++ E.map Prod.snd) := by
  intro rest
  induction rest with
  | nil =>
    intro i run_start prev bits lids rids cnt
    exact ⟨(List.range' run_start (order.length - run_start)).flatMap
        (fun j => entryPairs l1 op1 bits (order.getD j 0)),
      by simp only [traverse_l2_non_strict_go, flush_run_eq]⟩
  | cons p t ih =>
    intro i run_start prev bits lids rids cnt
    simp only [traverse_l2_non_strict_go, flush_run_eq]
    split
    · split
      · exact ⟨(List.range' run_start (i - run_start)).flatMap
          (fun j => entryPairs l1 op1 bits (order.getD j 0)), rfl⟩
      · obtain ⟨E, hE⟩ := ih (i + 1) i (yvals.getD p 0)
          (mark_visited l1 p bits)
          (lids ++ ((List.range' run_start (i - run_start)).flatMap
            (fun j => entryPairs l1 op1 bits (order.getD j 0))).map Prod.fst)
          (rids ++ ((List.range' run_start (i - run_start)).flatMap
            (fun j => entryPairs l1 op1 bits (order.getD j 0))).map Prod.snd)
          (cnt + (((List.range' run_start (i - run_start)).flatMap
            (fun j => entryPairs l1 op1 bits (order.getD j 0))).length : Int))
        rw [hE]
        exact ⟨((List.range' run_start (i - run_start)).flatMap
            (fun j => entryPairs l1 op1 bits (order.getD j 0))) ++ E,
          by simp [List.append_assoc]⟩
    · exact ih (i + 1) run_start (yvals.getD p 0) (mark_visited l1 p bits)
        lids rids cnt

theorem ie_join_impl_t_ext (slice : Option (Int × Nat)) (l1_order : List Nat)
    (l2_order : List Nat) (op1 op2 : InequalityOperator)
    (x : List Int) (y_ordered : List Int) (left_height : Nat) :
    ∃ E : List (Nat × Nat),
      ie_join_impl_t slice l1_order l2_order op1 op2 x y_ordered left_height
        = (E.map Prod.fst, E.map Prod.snd) := by
  unfold ie_join_impl_t traverse_l2_array_non_strict
  by_cases hstrict : op2.is_strict = true
  · rw [if_pos hstrict]
    obtain ⟨E, hE⟩ := traverse_l2_strict_ext
      (build_l1_array x l1_order left_height) op1
      (match slice with
       | some (offset, len) =>
         if 0 ≤ offset then some (saturating_add_unsigned offset len) else none
       | none => none)
      l2_order (FilteredBitArray.from_len_zeroed l1_order.length) [] [] 0
    rw [hE]
    exact ⟨E, by simp⟩
  · rw [if_neg hstrict]
    obtain ⟨E, hE⟩ := traverse_l2_non_strict_go_ext y_ordered l2_order
      (build_l1_array x l1_order left_height) op1
      (match slice with
       | some (offset, len) =>
         if 0 ≤ offset then some (saturating_add_unsigned offset len) else none
       | none => none)
      l2_order 0 0 0 (FilteredBitArray.from_len_zeroed l1_order.length) [] [] 0
    rw [hE]
    exact ⟨E, by simp⟩

theorem series_slice_nulls (d : Bool) (col : List (Option Int)) :
    series_slice (arg_sort d col) ((null_count col : Nat) : Int)
        (col.length - null_count col)
      = (arg_sort d col).drop (null_count col) := by
  simp only [series_slice, if_pos (Int.ofNat_nonneg (null_count col)),
    Int.toNat_natCast]
  apply List.take_of_length_le
  rw [List.length_drop, arg_sort_length]

theorem values_buffer_getD (col : List (Option Int)) (k : Nat) :
    (values_buffer col).getD k 0 = (col.getD k none).getD 0 := by
  by_cases h : k < col.length
  · unfold values_buffer
    rw [List.getD_eq_getElem _ _ (by simpa using h), List.getElem_map,
      List.getD_eq_getElem _ _ h]
  · have h2 : (values_buffer col).length ≤ k := by
      unfold values_buffer
      rw [List.length_map]
      omega
    rw [List.getD_eq_default _ _ h2, List.getD_eq_default _ _ (by omega)]
    rfl

theorem isNone_false_ne_none {o : Option Int} (h : o.isNone = false) :
    o ≠ none := by
  cases o
  · simp at h
  · exact fun hc => Option.noConfusion hc

theorem dropped_getD_not_none (d : Bool) (col : List (Option Int)) (k : Nat)
    (hk : k < ((arg_sort d col).drop (null_count col)).length) :
    col.getD (((arg_sort d col).drop (null_count col)).getD k 0) none
      ≠ none := by
  rw [getD_drop]
  apply isNone_false_ne_none
  apply arg_sort_suffix_not_none d col (null_count col + k) (by omega)
  rw [List.length_drop] at hk
  omega

theorem dropped_nodup (d : Bool) (col : List (Option Int)) :
    ((arg_sort d col).drop (null_count col)).Nodup :=
  (List.drop_sublist _ _).nodup (arg_sort_nodup d col)

theorem dropped_mem_lt (d : Bool) (col : List (Option Int)) (g : Nat)
    (hg : g ∈ (arg_sort d col).drop (null_count col)) : g < col.length :=
  (arg_sort_mem d col g).mp ((List.drop_sublist _ _).mem hg)

theorem dropped_complete (d : Bool) (col : List (Option Int)) (g : Nat)
    (hg : g < col.length) (hnn : col.getD g none ≠ none) :
    g ∈ (arg_sort d col).drop (null_count col) := by
  have hmem : g ∈ arg_sort d col := (arg_sort_mem d col g).mpr hg
  rw [← List.take_append_drop (null_count col) (arg_sort d col),
    List.mem_append] at hmem
  rcases hmem with htk | hdr
  · exfalso
    rw [List.mem_iff_getElem] at htk
    obtain ⟨a, ha, hag⟩ := htk
    have ha2 : a < null_count col := by
      rw [List.length_take] at ha
      omega
    have ha3 : a < (arg_sort d col).length := by
      rw [List.length_take] at ha
      omega
    have hpre := arg_sort_prefix_none d col a ha2
    have hge : (arg_sort d col).getD a 0 = g := by
      rw [← hag, List.getElem_take, List.getD_eq_getElem _ _ ha3]
    rw [hge] at hpre
    exact hnn (Option.isNone_iff_eq_none.mp hpre)
  · exact hdr

theorem series_slice_take {α : Type} (l : List α) (offset : Int) (len m : Nat)
    (h0 : 0 ≤ offset) (hm : min (offset.toNat + len) l.length ≤ m) :
    series_slice (l.take m) offset len = series_slice l offset len := by
  simp only [series_slice, if_pos h0]
  rw [List.drop_take]
  rw [List.take_take]
  rcases Nat.le_total (offset.toNat + len) l.length with hc | hc
  · have hmo : len ≤ m - offset.toNat := by omega
    rw [min_eq_left hmo]
  · have hlen : l.length - offset.toNat ≤ m - offset.toNat := by omega
    rw [List.take_eq_take]
    rw [List.length_drop]
    omega

theorem traverse_l2_strict_none_step (l1 : List L1Item) (op1 : InequalityOperator)
    (p : Nat) (t : List Nat) (bits : List Bool) (lids rids : List Nat) (cnt : Int) :
    traverse_l2_strict l1 op1 none (p :: t) bits lids rids cnt
      = traverse_l2_strict l1 op1 none t (stepBits l1 p bits)
          (lids ++ (entryPairs l1 op1 bits p).map Prod.fst)
          (rids ++ (entryPairs l1 op1 bits p).map Prod.snd)
          (cnt + ((entryPairs l1 op1 bits p).length : Int)) := by
  simp [traverse_l2_strict, process_entry_eq]

theorem traverse_l2_strict_slice (l1 : List L1Item) (op1 : InequalityOperator)
    (e : Int) :
    ∀ (rest : List Nat) (bits : List Bool) (lids rids : List Nat) (cnt : Int),
      cnt = (lids.length : Int) → lids.length = rids.length →
      ∃ m : Nat,
        traverse_l2_strict l1 op1 (some e) rest bits lids rids cnt
          = ((traverse_l2_strict l1 op1 none rest bits lids rids cnt).1.take m,
             (traverse_l2_strict l1 op1 none rest bits lids rids cnt).2.take m) ∧
        min e ((traverse_l2_strict l1 op1 none rest bits lids rids cnt).1.length : Int)
          ≤ (m : Int) := by
  intro rest
  induction rest with
  | nil =>
    intro bits lids rids cnt hc hlr
    refine ⟨lids.length, ?_, ?_⟩
    · simp [traverse_l2_strict, hlr, List.take_length]
    · simp only [traverse_l2_strict]
      exact min_le_right _ _
  | cons p t ih =>
    intro bits lids rids cnt hc hlr
    rw [traverse_l2_strict_none_step]
    simp only [traverse_l2_strict, process_entry_eq]
    by_cases hbr : e ≤ cnt + ((entryPairs l1 op1 bits p).length : Int)
    · rw [if_pos (by simp [hbr])]
      obtain ⟨E, hE⟩ := traverse_l2_strict_ext l1 op1 none t (stepBits l1 p bits)
        (lids ++ (entryPairs l1 op1 bits p).map Prod.fst)
        (rids ++ (entryPairs l1 op1 bits p).map Prod.snd)
        (cnt + ((entryPairs l1 op1 bits p).length : Int))
      rw [hE]
      refine ⟨(lids ++ (entryPairs l1 op1 bits p).map Prod.fst).length, ?_, ?_⟩
      · rw [List.take_left]
        have hlr2 : (lids ++ (entryPairs l1 op1 bits p).map Prod.fst).length
            = (rids ++ (entryPairs l1 op1 bits p).map Prod.snd).length := by
          simp [hlr]
        rw [hlr2, List.take_left]
      · have : min e (((lids ++ (entryPairs l1 op1 bits p).map Prod.fst)
            ++ E.map Prod.fst).length : Int)
            ≤ e := min_le_left _ _
        have hl : ((lids ++ (entryPairs l1 op1 bits p).map Prod.fst).length : Int)
            = cnt + ((entryPairs l1 op1 bits p).length : Int) := by
          simp [hc]
        omega
    · rw [if_neg (by simp [hbr])]
      exact ih (stepBits l1 p bits)
        (lids ++ (entryPairs l1 op1 bits p).map Prod.fst)
        (rids ++ (entryPairs l1 op1 bits p).map Prod.snd)
        (cnt + ((entryPairs l1 op1 bits p).length : Int))
        (by simp [hc]) (by simp [hlr])

theorem mark_visited_eq_stepBits (l1 : List L1Item) (p : Nat)
    (bits : List Bool) : mark_visited l1 p bits = stepBits l1 p bits := rfl

theorem processedBits_nil (l1 : List L1Item) (bits : List Bool) :
    processedBits l1 [] bits = bits := rfl

theorem processedBits_append (l1 : List L1Item) (P Q : List Nat)
    (bits : List Bool) :
    processedBits l1 (P ++ Q) bits
      = processedBits l1 Q (processedBits l1 P bits) :=
  List.foldl_append _ _ _ _

theorem processedBits_length (l1 : List L1Item) :
    ∀ (P : List Nat) (bits : List Bool),
      (processedBits l1 P bits).length = bits.length := by
  intro P
  induction P with
  | nil => intro bits; rfl
  | cons p t ih =>
    intro bits
    show (processedBits l1 t (stepBits l1 p bits)).length = bits.length
    rw [ih]
    unfold stepBits
    split
    · rfl
    · exact length_set_bit bits p

theorem processedBits_take_succ (l1 : List L1Item) (order : List Nat)
    (i : Nat) (hi : i < order.length) (bits : List Bool) :
    processedBits l1 (order.take (i + 1)) bits
      = stepBits l1 (order.getD i 0) (processedBits l1 (order.take i) bits) := by
  rw [← List.take_concat_get' order i hi, processedBits_append]
  show (List.foldl _ _ [order[i]]) = _
  rw [List.foldl_cons, List.foldl_nil, List.getD_eq_getElem _ _ hi]

theorem processedBits_getD (l1 : List L1Item) :
    ∀ (P : List Nat) (bits : List Bool) (k : Nat),
      (processedBits l1 P bits).getD k false = true ↔
        (bits.getD k false = true ∨
          (k ∈ P ∧ ¬ 0 < (l1.getD k default).row_index ∧ k < bits.length)) := by
  intro P
  induction P with
  | nil =>
    intro bits k
    simp [processedBits_nil]
  | cons p t ih =>
    intro bits k
    have hstep : processedBits l1 (p :: t) bits
        = processedBits l1 t (stepBits l1 p bits) := rfl
    rw [hstep, ih]
    have hlen : (stepBits l1 p bits).length = bits.length := by
      unfold stepBits
      split
      · rfl
      · exact length_set_bit bits p
    rw [hlen]
    unfold stepBits
    split
    · next hpos =>
      constructor
      · rintro (hb | ⟨hm, hneg, hk⟩)
        · exact Or.inl hb
        · exact Or.inr ⟨List.mem_cons_of_mem p hm, hneg, hk⟩
      · rintro (hb | ⟨hm, hneg, hk⟩)
        · exact Or.inl hb
        · rcases List.mem_cons.mp hm with rfl | hm2
          · exact absurd hpos hneg
          · exact Or.inr ⟨hm2, hneg, hk⟩
    · next hneg =>
      rw [getD_set_bit]
      constructor
      · rintro (hb | ⟨hm, hneg2, hk⟩)
        · by_cases hki : k = p ∧ p < bits.length
          · exact Or.inr ⟨hki.1 ▸ List.mem_cons_self p t, hki.1 ▸ hneg,
              hki.1 ▸ hki.2⟩
          · rw [if_neg hki] at hb
            exact Or.inl hb
        · exact Or.inr ⟨List.mem_cons_of_mem p hm, hneg2, hk⟩
      · rintro (hb | ⟨hm, hneg2, hk⟩)
        · left
          split
          · rfl
          · exact hb
        · rcases List.mem_cons.mp hm with rfl | hm2
          · left
            rw [if_pos ⟨rfl, hk⟩]
          · exact Or.inr ⟨hm2, hneg2, hk⟩

theorem traverse_l2_strict_chars (l1 : List L1Item) (op1 : InequalityOperator)
    (order : List Nat) (bits0 : List Bool) :
    ∀ (rest : List Nat) (i : Nat) (lids rids : List Nat) (cnt : Int),
      rest = order.drop i → i ≤ order.length →
      traverse_l2_strict l1 op1 none rest
          (processedBits l1 (order.take i) bits0) lids rids cnt
        = (lids ++ ((List.range' i (order.length - i)).flatMap
            (fun t => entryPairs l1 op1 (processedBits l1 (order.take t) bits0)
              (order.getD t 0))).map Prod.fst,
           rids ++ ((List.range' i (order.length - i)).flatMap
            (fun t => entryPairs l1 op1 (processedBits l1 (order.take t) bits0)
              (order.getD t 0))).map Prod.snd) := by
  intro rest
  induction rest with
  | nil =>
    intro i lids rids cnt hres hi
    have hin : i = order.length := by
      have hl := congrArg List.length hres
      rw [List.length_drop] at hl
      simp at hl
      omega
    rw [hin, Nat.sub_self]
    simp [traverse_l2_strict]
  | cons p t ih =>
    intro i lids rids cnt hres hi
    have hilt : i < order.length := by
      by_contra hcon
      rw [List.drop_eq_nil_of_le (by omega)] at hres
      exact List.noConfusion hres
    have hdec := List.drop_eq_getElem_cons hilt
    rw [hdec] at hres
    have hpe : p = order.getD i 0 := by
      rw [List.getD_eq_getElem _ _ hilt]
      exact (List.cons.injEq _ _ _ _ ▸ hres).1
    have hte : t = order.drop (i + 1) := (List.cons.injEq _ _ _ _ ▸ hres).2
    rw [traverse_l2_strict_none_step]
    have hb : stepBits l1 p (processedBits l1 (order.take i) bits0)
        = processedBits l1 (order.take (i + 1)) bits0 := by
      rw [processedBits_take_succ l1 order i hilt, hpe]
    rw [hb]
    rw [ih (i + 1) _ _ _ hte (by omega)]
    have hsplit : List.range' i (order.length - i)
        = i :: List.range' (i + 1) (order.length - (i + 1)) := by
      have : order.length - i = (order.length - (i + 1)) + 1 := by omega
      rw [this]
      rfl
    rw [hsplit, List.flatMap_cons, hpe]
    simp [List.append_assoc]

theorem length_takeWhile_eq {α : Type} (p : α → Bool) (l : List α) (d : α)
    (m : Nat) (hm : m ≤ l.length)
    (h1 : ∀ k, k < m → p (l.getD k d) = true)
    (h2 : m < l.length → p (l.getD m d) = false) :
    (l.takeWhile p).length = m := by
  rcases Nat.lt_trichotomy (l.takeWhile p).length m with hlt | heq | hgt
  · exfalso
    have ht : (l.takeWhile p).length < l.length := by
      have := takeWhile_length_le p l
      omega
    have hf := takeWhile_pred_false p d l ht
    have htr := h1 _ hlt
    rw [htr] at hf
    simp at hf
  · exact heq
  · exfalso
    have htr := takeWhile_pred_true p d l m hgt
    have hlf := h2 (by
      have := takeWhile_length_le p l
      omega)
    rw [htr] at hlf
    simp at hlf

theorem runEnd_eq (yvals : List Int) (order : List Nat) (t e : Nat)
    (ht : t < e) (he : e ≤ order.length)
    (hall : ∀ s, t < s → s < e →
      yvals.getD (order.getD s 0) 0 = yvals.getD (order.getD t 0) 0)
    (hend : e < order.length →
      yvals.getD (order.getD e 0) 0 ≠ yvals.getD (order.getD t 0) 0) :
    runEnd yvals order t = e := by
  unfold runEnd
  have hlen := length_takeWhile_eq
    (fun p => decide (yvals.getD p 0 = yvals.getD (order.getD t 0) 0))
    (order.drop (t + 1)) 0 (e - (t + 1))
    (by rw [List.length_drop]; omega)
    (by
      intro k hk
      rw [getD_drop]
      simp only [decide_eq_true_eq]
      exact hall (t + 1 + k) (by omega) (by omega))
    (by
      intro hlt
      rw [getD_drop]
      have he2 : t + 1 + (e - (t + 1)) = e := by omega
      rw [he2]
      simp only [decide_eq_false_iff_not]
      apply hend
      rw [List.length_drop] at hlt
      omega)
  rw [hlen]
  omega

theorem runEnd_gt (yvals : List Int) (order : List Nat) (t : Nat) :
    t < runEnd yvals order t := by
  unfold runEnd
  omega

theorem runEnd_le_length (yvals : List Int) (order : List Nat) (t : Nat)
    (ht : t < order.length) : runEnd yvals order t ≤ order.length := by
  unfold runEnd
  have := takeWhile_length_le
    (fun p => decide (yvals.getD p 0 = yvals.getD (order.getD t 0) 0))
    (order.drop (t + 1))
  rw [List.length_drop] at this
  omega

theorem traverse_l2_non_strict_go_none_step_boundary (yvals : List Int)
    (order : List Nat) (l1 : List L1Item) (op1 : InequalityOperator)
    (p : Nat) (t : List Nat) (i run_start : Nat) (prev : Int) (bits : List Bool)
    (lids rids : List Nat) (cnt : Int)
    (hb : 0 < i ∧ yvals.getD p 0 ≠ prev) :
    traverse_l2_non_strict_go yvals order l1 op1 none (p :: t) i run_start prev
        bits lids rids cnt
      = traverse_l2_non_strict_go yvals order l1 op1 none t (i + 1) i
          (yvals.getD p 0) (mark_visited l1 p bits)
          (lids ++ ((List.range' run_start (i - run_start)).flatMap
            (fun j => entryPairs l1 op1 bits (order.getD j 0))).map Prod.fst)
          (rids ++ ((List.range' run_start (i - run_start)).flatMap
            (fun j => entryPairs l1 op1 bits (order.getD j 0))).map Prod.snd)
          (cnt + (((List.range' run_start (i - run_start)).flatMap
            (fun j => entryPairs l1 op1 bits (order.getD j 0))).length : Int)) := by
  simp only [traverse_l2_non_strict_go, flush_run_eq, if_pos hb]
  rw [if_neg (by simp)]

theorem traverse_l2_non_strict_go_none_step_inside (yvals : List Int)
    (order : List Nat) (l1 : List L1Item) (op1 : InequalityOperator)
    (p : Nat) (t : List Nat) (i run_start : Nat) (prev : Int) (bits : List Bool)
    (lids rids : List Nat) (cnt : Int)
    (hb : ¬(0 < i ∧ yvals.getD p 0 ≠ prev)) :
    traverse_l2_non_strict_go yvals order l1 op1 none (p :: t) i run_start prev
        bits lids rids cnt
      = traverse_l2_non_strict_go yvals order l1 op1 none t (i + 1) run_start
          (yvals.getD p 0) (mark_visited l1 p bits) lids rids cnt := by
  simp only [traverse_l2_non_strict_go, if_neg hb]

theorem traverse_l2_non_strict_go_chars (yvals : List Int) (order : List Nat)
    (l1 : List L1Item) (op1 : InequalityOperator) (bits0 : List Bool) :
    ∀ (rest : List Nat) (i run_start : Nat) (prev : Int)
      (lids rids : List Nat) (cnt : Int),
      rest = order.drop i → i ≤ order.length → run_start ≤ i →
      (0 < i → run_start < i) →
      (∀ s, run_start ≤ s → s < i →
        yvals.getD (order.getD s 0) 0 = yvals.getD (order.getD run_start 0) 0) →
      (0 < i → prev = yvals.getD (order.getD (i - 1) 0) 0) →
      traverse_l2_non_strict_go yvals order l1 op1 none rest i run_start prev
          (processedBits l1 (order.take i) bits0) lids rids cnt
        = (lids ++ ((List.range' run_start (order.length - run_start)).flatMap
            (fun u => entryPairs l1 op1
              (processedBits l1 (order.take (runEnd yvals order u)) bits0)
              (order.getD u 0))).map Prod.fst,
           rids ++ ((List.range' run_start (order.length - run_start)).flatMap
            (fun u => entryPairs l1 op1
              (processedBits l1 (order.take (runEnd yvals order u)) bits0)
              (order.getD u 0))).map Prod.snd) := by
  intro rest
  induction rest with
  | nil =>
    intro i run_start prev lids rids cnt hres hi hrs hrs2 hrun hprev
    have hin : i = order.length := by
      have hl := congrArg List.length hres
      rw [List.length_drop] at hl
      simp at hl
      omega
    simp only [traverse_l2_non_strict_go, flush_run_eq]
    have hcongr : ∀ u ∈ List.range' run_start (order.length - run_start),
        entryPairs l1 op1 (processedBits l1 (order.take i) bits0)
            (order.getD u 0)
          = entryPairs l1 op1
              (processedBits l1 (order.take (runEnd yvals order u)) bits0)
              (order.getD u 0) := by
      intro u hu
      rw [List.mem_range'_1] at hu
      have hre : runEnd yvals order u = i := by
        apply runEnd_eq yvals order u i (by omega) (by omega)
        · intro s hs1 hs2
          rw [hrun s (by omega) (by omega), hrun u (by omega) (by omega)]
        · intro hlt
          omega
      rw [hre]
    rw [List.flatMap_congr hcongr]
  | cons p t ih =>
    intro i run_start prev lids rids cnt hres hi hrs hrs2 hrun hprev
    have hilt : i < order.length := by
      by_contra hcon
      rw [List.drop_eq_nil_of_le (by omega)] at hres
      exact List.noConfusion hres
    have hdec := List.drop_eq_getElem_cons hilt
    rw [hdec] at hres
    have hpe : p = order.getD i 0 := by
      rw [List.getD_eq_getElem _ _ hilt]
      exact (List.cons.injEq _ _ _ _ ▸ hres).1
    have hte : t = order.drop (i + 1) := (List.cons.injEq _ _ _ _ ▸ hres).2
    by_cases hbb : 0 < i ∧ yvals.getD p 0 ≠ prev
    · rw [traverse_l2_non_strict_go_none_step_boundary yvals order l1 op1 p t i
        run_start prev _ lids rids cnt hbb]
      rw [mark_visited_eq_stepBits, hpe,
        ← processedBits_take_succ l1 order i hilt bits0]
      rw [ih (i + 1) i (yvals.getD (order.getD i 0) 0) _ _ _ hte (by omega)
        (by omega) (fun _ => by omega)
        (by
          intro s hs1 hs2
          have hsi : s = i := by omega
          rw [hsi])
        (by
          intro _
          simp)]
      have hprevrs : prev = yvals.getD (order.getD run_start 0) 0 := by
        rw [hprev hbb.1]
        exact hrun (i - 1) (by omega) (by omega)
      have hcongr : ∀ u ∈ List.range' run_start (i - run_start),
          entryPairs l1 op1 (processedBits l1 (order.take i) bits0)
              (order.getD u 0)
            = entryPairs l1 op1
                (processedBits l1 (order.take (runEnd yvals order u)) bits0)
                (order.getD u 0) := by
        intro u hu
        rw [List.mem_range'_1] at hu
        have hre : runEnd yvals order u = i := by
          apply runEnd_eq yvals order u i (by omega) (by omega)
          · intro s hs1 hs2
            rw [hrun s (by omega) (by omega), hrun u (by omega) (by omega)]
          · intro _
            rw [hrun u (by omega) (by omega), ← hprevrs, ← hpe]
            exact hbb.2
        rw [hre]
      have hsplit : List.range' run_start (order.length - run_start)
          = List.range' run_start (i - run_start)
            ++ List.range' i (order.length - i) := by
        have h1 : run_start + (i - run_start) = i := by omega
        have h2 : order.length - i + (i - run_start)
            = order.length - run_start := by omega
        rw [← h2, ← List.range'_append_1, h1]
      rw [hsplit, List.flatMap_append, List.flatMap_congr hcongr]
      simp [List.append_assoc]
    · rw [traverse_l2_non_strict_go_none_step_inside yvals order l1 op1 p t i
        run_start prev _ lids rids cnt hbb]
      rw [mark_visited_eq_stepBits, hpe,
        ← processedBits_take_succ l1 order i hilt bits0]
      rw [ih (i + 1) run_start (yvals.getD (order.getD i 0) 0) _ _ _ hte
        (by omega) (by omega) (by omega)
        (by
          intro s hs1 hs2
          rcases Nat.lt_or_ge s i with hsi | hsi
          · exact hrun s hs1 hsi
          · have hsieq : s = i := by omega
            rw [hsieq]
            rcases Nat.eq_zero_or_pos i with hz | hpos
            · have h0 : run_start = 0 := by omega
              rw [hz, h0]
            · have hval : yvals.getD p 0 = prev := by
                by_contra hne
                exact hbb ⟨hpos, hne⟩
              rw [← hpe, hval, hprev hpos]
              exact hrun (i - 1) (by omega) (by omega))
        (by
          intro _
          simp)]

theorem from_len_zeroed_getD (n k : Nat) :
    (FilteredBitArray.from_len_zeroed n).getD k false = false := by
  unfold FilteredBitArray.from_len_zeroed
  by_cases hkn : k < n
  · rw [List.getD_eq_getElem _ _ (by simpa using hkn)]
    simp
  · rw [List.getD_eq_default _ _ (by simpa using not_lt.mp hkn)]

theorem from_len_zeroed_length (n : Nat) :
    (FilteredBitArray.from_len_zeroed n).length = n := by
  unfold FilteredBitArray.from_len_zeroed
  simp

theorem mem_entryPairs (l1 : List L1Item) (op1 : InequalityOperator)
    (bits : List Bool) (p : Nat) (pr : Nat × Nat) :
    pr ∈ entryPairs l1 op1 bits p ↔
      (0 < (l1.getD p default).row_index ∧
       ∃ q, find_search_start_index l1 p op1 ≤ q ∧ q < bits.length ∧
         bits.getD q false = true ∧
         pr = (((l1.getD p default).row_index - 1).toNat,
               (-(l1.getD q default).row_index).toNat - 1)) := by
  unfold entryPairs fmPairs
  split
  · next hpos =>
    rw [List.mem_map]
    constructor
    · rintro ⟨q, hq, he⟩
      rw [mem_setBitsFrom] at hq
      exact ⟨hpos, q, hq.1, hq.2.1, hq.2.2, he.symm⟩
    · rintro ⟨_, q, h1, h2, h3, he⟩
      exact ⟨q, (mem_setBitsFrom _ _ _).mpr ⟨h1, h2, h3⟩, he.symm⟩
  · next hneg =>
    simp only [List.not_mem_nil, false_iff, not_and]
    intro hpos
    exact absurd hpos hneg

theorem mem_flat_entryPairs (l1 : List L1Item) (op1 : InequalityOperator)
    (order : List Nat) (bits0 : List Bool) (B : Nat → Nat) (pr : Nat × Nat) :
    pr ∈ (List.range' 0 order.length).flatMap
        (fun t => entryPairs l1 op1 (processedBits l1 (order.take (B t)) bits0)
          (order.getD t 0)) ↔
      ∃ t, t < order.length ∧
        pr ∈ entryPairs l1 op1 (processedBits l1 (order.take (B t)) bits0)
          (order.getD t 0) := by
  rw [List.mem_flatMap]
  constructor
  · rintro ⟨t, ht, hm⟩
    rw [List.mem_range'_1] at ht
    exact ⟨t, by omega, hm⟩
  · rintro ⟨t, ht, hm⟩
    exact ⟨t, List.mem_range'_1.mpr ⟨by omega, by omega⟩, hm⟩

theorem zip_map_fst_snd {α β : Type} (E : List (α × β)) :
    (E.map Prod.fst).zip (E.map Prod.snd) = E := by
  rw [List.zip_map']
  simp

theorem map_getD_getD (l1o : List Nat) (y : List (Option Int)) (q : Nat)
    (hq : q < l1o.length) :
    (l1o.map (fun i => y.getD i none)).getD q none
      = y.getD (l1o.getD q 0) none := by
  rw [List.getD_eq_getElem _ _ (by simpa using hq), List.getElem_map,
    List.getD_eq_getElem _ _ hq]

theorem dropped_not_none (d : Bool) (col : List (Option Int)) (g : Nat)
    (hg : g ∈ (arg_sort d col).drop (null_count col)) :
    col.getD g none ≠ none := by
  rw [List.mem_iff_getElem] at hg
  obtain ⟨k, hk, he⟩ := hg
  have h := dropped_getD_not_none d col k hk
  rw [List.getD_eq_getElem _ _ hk] at h
  rw [← he]
  exact h

theorem getD_mem_of_lt {α : Type} (l : List α) (d : α) (k : Nat)
    (hk : k < l.length) : l.getD k d ∈ l := by
  rw [List.getD_eq_getElem _ _ hk]
  exact List.getElem_mem hk

theorem ie_join_impl_t_none_pairs_strict (l1_order l2_order : List Nat)
    (op1 op2 : InequalityOperator) (x y_ordered : List Int) (lh : Nat)
    (hstrict : op2.is_strict = true) :
    ie_join_impl_t none l1_order l2_order op1 op2 x y_ordered lh
      = (((List.range' 0 l2_order.length).flatMap
            (fun t => entryPairs (build_l1_array x l1_order lh) op1
              (processedBits (build_l1_array x l1_order lh) (l2_order.take t)
                (FilteredBitArray.from_len_zeroed l1_order.length))
              (l2_order.getD t 0))).map Prod.fst,
         ((List.range' 0 l2_order.length).flatMap
            (fun t => entryPairs (build_l1_array x l1_order lh) op1
              (processedBits (build_l1_array x l1_order lh) (l2_order.take t)
                (FilteredBitArray.from_len_zeroed l1_order.length))
              (l2_order.getD t 0))).map Prod.snd) := by
  simp only [ie_join_impl_t]
  rw [if_pos hstrict]
  have h := traverse_l2_strict_chars (build_l1_array x l1_order lh) op1
    l2_order (FilteredBitArray.from_len_zeroed l1_order.length)
    l2_order 0 [] [] 0 rfl (by omega)
  simpa using h

theorem ie_join_impl_t_none_pairs_non_strict (l1_order l2_order : List Nat)
    (op1 op2 : InequalityOperator) (x y_ordered : List Int) (lh : Nat)
    (hstrict : op2.is_strict = false) :
    ie_join_impl_t none l1_order l2_order op1 op2 x y_ordered lh
      = (((List.range' 0 l2_order.length).flatMap
            (fun t => entryPairs (build_l1_array x l1_order lh) op1
              (processedBits (build_l1_array x l1_order lh)
                (l2_order.take (runEnd y_ordered l2_order t))
                (FilteredBitArray.from_len_zeroed l1_order.length))
              (l2_order.getD t 0))).map Prod.fst,
         ((List.range' 0 l2_order.length).flatMap
            (fun t => entryPairs (build_l1_array x l1_order lh) op1
              (processedBits (build_l1_array x l1_order lh)
                (l2_order.take (runEnd y_ordered l2_order t))
                (FilteredBitArray.from_len_zeroed l1_order.length))
              (l2_order.getD t 0))).map Prod.snd) := by
  simp only [ie_join_impl_t, traverse_l2_array_non_strict]
  rw [if_neg (by rw [hstrict]; exact Bool.false_ne_true)]
  have h := traverse_l2_non_strict_go_chars y_ordered l2_order
    (build_l1_array x l1_order lh) op1
    (FilteredBitArray.from_len_zeroed l1_order.length)
    l2_order 0 0 0 [] [] 0 rfl (by omega) (by omega)
    (fun hc => absurd hc (by omega))
    (fun s hs1 hs2 => absurd hs2 (by omega))
    (fun hc => absurd hc (by omega))
  simpa using h

theorem build_l1_array_getD (values : List Int) (order : List Nat) (nL : Nat)
    (k : Nat) (hk : k < order.length) :
    (build_l1_array values order nL).getD k default =
      { row_index :=
          if order.getD k 0 < nL then (order.getD k 0 : Int) + 1
          else -((order.getD k 0 - nL : Nat) : Int) - 1,
        value := values.getD (order.getD k 0) 0 } := by
  unfold build_l1_array
  have hk2 : k < (order.map (fun index => (⟨if index < nL then (index : Int) + 1
      else -((index - nL : Nat) : Int) - 1, values.getD index 0⟩ : L1Item))).length := by
    simpa using hk
  rw [List.getD_eq_getElem _ _ hk2, List.getElem_map, List.getD_eq_getElem _ _ hk]

theorem find_search_start_index_ge (l1 : List L1Item) (index : Nat)
    (op : InequalityOperator) : index ≤ find_search_start_index l1 index op := by
  cases op <;> simp [find_search_start_index]

theorem pairwise_getD {α : Type} {R : α → α → Prop} (L : List α) (d : α)
    (h : L.Pairwise R) (a b : Nat) (hab : a < b) (hb : b < L.length) :
    R (L.getD a d) (L.getD b d) := by
  have ha : a < L.length := by omega
  rw [List.getD_eq_getElem _ _ ha, List.getD_eq_getElem _ _ hb]
  have hg := List.pairwise_iff_get.mp h ⟨a, ha⟩ ⟨b, hb⟩ (by simpa using hab)
  simpa using hg

theorem some_getD {o : Option Int} (h : o ≠ none) : o = some (o.getD 0) := by
  cases o
  · exact absurd rfl h
  · rfl

theorem sortLe_some_iff_asc (col : List (Option Int)) (i j : Nat)
    (vi vj : Int) (hi : col.getD i none = some vi)
    (hj : col.getD j none = some vj) :
    (sortLe false col i j = true ↔ (vi < vj ∨ (vi = vj ∧ i ≤ j))) := by
  simp only [sortLe, hi, hj, opt_lt,
    if_neg (by decide : ¬ (false : Bool) = true), Bool.or_eq_true,
    Bool.and_eq_true, Bool.not_eq_true', decide_eq_true_eq,
    decide_eq_false_iff_not]
  omega

theorem sortLe_some_iff_desc (col : List (Option Int)) (i j : Nat)
    (vi vj : Int) (hi : col.getD i none = some vi)
    (hj : col.getD j none = some vj) :
    (sortLe true col i j = true ↔ (vj < vi ∨ (vi = vj ∧ i ≤ j))) := by
  simp only [sortLe, hi, hj, opt_lt, eq_self_iff_true, if_true,
    Bool.or_eq_true, Bool.and_eq_true, Bool.not_eq_true', decide_eq_true_eq,
    decide_eq_false_iff_not]
  omega

theorem partition_point_drop_spec (l1 : List L1Item) (i : Nat)
    (p : L1Item → Bool) :
    (∀ k, i ≤ k → k < partition_point p (l1.drop i) + i →
      p (l1.getD k default) = true) ∧
    (partition_point p (l1.drop i) + i < l1.length →
      p (l1.getD (partition_point p (l1.drop i) + i) default) = false) ∧
    partition_point p (l1.drop i) ≤ l1.length - i := by
  refine ⟨?_, ?_, ?_⟩
  · intro k hik hk
    have h1 := (partition_point_spec p (l1.drop i) default).1 (k - i) (by omega)
    rw [getD_drop] at h1
    have he : i + (k - i) = k := by omega
    rwa [he] at h1
  · intro hlt
    have hd : partition_point p (l1.drop i) < (l1.drop i).length := by
      rw [List.length_drop]
      omega
    have h2 := (partition_point_spec p (l1.drop i) default).2.1 hd
    rw [getD_drop] at h2
    have he : i + partition_point p (l1.drop i)
        = partition_point p (l1.drop i) + i := by omega
    rwa [he] at h2
  · have := takeWhile_length_le p (l1.drop i)
    rw [List.length_drop] at this
    exact this

theorem l1_value_at (x : List (Option Int)) (l1o : List Nat) (nL k : Nat)
    (hk : k < l1o.length) :
    ((build_l1_array (values_buffer x) l1o nL).getD k default).value
      = (x.getD (l1o.getD k 0) none).getD 0 := by
  rw [build_l1_array_getD _ _ _ k hk]
  exact values_buffer_getD x (l1o.getD k 0)

theorem emitted_pair_analysis (xL yL xR yR : List (Option Int))
    (hyL : yL.length = xL.length)
    (l1o : List Nat)
    (hl1mem : ∀ g ∈ l1o, (xL ++ xR).getD g none ≠ none)
    (hl1lt : ∀ g ∈ l1o, g < (xL ++ xR).length)
    (l2o : List Nat)
    (hl2mem : ∀ k ∈ l2o, k < l1o.length)
    (hl2y : ∀ k ∈ l2o, (yL ++ yR).getD (l1o.getD k 0) none ≠ none)
    (p q : Nat) (hp : p ∈ l2o) (hq : q ∈ l2o)
    (hppos : 0 < ((build_l1_array (values_buffer (xL ++ xR)) l1o
        xL.length).getD p default).row_index)
    (hqneg : ¬ 0 < ((build_l1_array (values_buffer (xL ++ xR)) l1o
        xL.length).getD q default).row_index) :
    (((build_l1_array (values_buffer (xL ++ xR)) l1o xL.length).getD p
        default).row_index - 1).toNat < xL.length ∧
    xL.getD (((build_l1_array (values_buffer (xL ++ xR)) l1o xL.length).getD p
        default).row_index - 1).toNat none ≠ none ∧
    yL.getD (((build_l1_array (values_buffer (xL ++ xR)) l1o xL.length).getD p
        default).row_index - 1).toNat none ≠ none ∧
    ((-((build_l1_array (values_buffer (xL ++ xR)) l1o xL.length).getD q
        default).row_index).toNat - 1) < xR.length ∧
    xR.getD ((-((build_l1_array (values_buffer (xL ++ xR)) l1o
        xL.length).getD q default).row_index).toNat - 1) none ≠ none ∧
    yR.getD ((-((build_l1_array (values_buffer (xL ++ xR)) l1o
        xL.length).getD q default).row_index).toNat - 1) none ≠ none := by
  have hpl : p < l1o.length := hl2mem p hp
  have hql : q < l1o.length := hl2mem q hq
  have hpb := build_l1_array_getD (values_buffer (xL ++ xR)) l1o xL.length p hpl
  have hqb := build_l1_array_getD (values_buffer (xL ++ xR)) l1o xL.length q hql
  have hgp : l1o.getD p 0 ∈ l1o := getD_mem_of_lt l1o 0 p hpl
  have hgq : l1o.getD q 0 ∈ l1o := getD_mem_of_lt l1o 0 q hql
  have hgpnn := hl1mem _ hgp
  have hgqnn := hl1mem _ hgq
  have hgplt := hl1lt _ hgp
  have hgqlt := hl1lt _ hgq
  have hypnn := hl2y p hp
  have hyqnn := hl2y q hq
  rw [List.length_append] at hgplt hgqlt
  by_cases hpL : l1o.getD p 0 < xL.length
  · by_cases hqL : l1o.getD q 0 < xL.length
    · exfalso
      rw [hqb] at hqneg
      simp only [if_pos hqL] at hqneg
      omega
    · rw [hpb, hqb]
      simp only [if_pos hpL, if_neg hqL]
      have hea : ((l1o.getD p 0 : Int) + 1 - 1).toNat = l1o.getD p 0 := by
        omega
      have heb : ((-(-((l1o.getD q 0 - xL.length : Nat) : Int) - 1)).toNat - 1)
          = l1o.getD q 0 - xL.length := by
        omega
      rw [hea, heb]
      refine ⟨hpL, ?_, ?_, by omega, ?_, ?_⟩
      · rw [List.getD_append _ _ _ _ hpL] at hgpnn
        exact hgpnn
      · rw [List.getD_append _ _ _ _ (by omega)] at hypnn
        exact hypnn
      · rw [List.getD_append_right _ _ _ _ (by omega)] at hgqnn
        exact hgqnn
      · rw [List.getD_append_right _ _ _ _ (by omega), hyL] at hyqnn
        exact hyqnn
  · exfalso
    rw [hpb] at hppos
    simp only [if_neg hpL] at hppos
    omega

theorem start_index_iff (x : List (Option Int)) (nL : Nat)
    (op1 : InequalityOperator) (l1o : List Nat)
    (hsorted : l1o.Pairwise
      (fun g h => sortLe (l1_descending op1) x g h = true))
    (hnodup : l1o.Nodup)
    (hnn : ∀ g ∈ l1o, x.getD g none ≠ none)
    (p q : Nat) (hp : p < l1o.length) (hq : q < l1o.length)
    (hpleft : l1o.getD p 0 < nL) (hqright : nL ≤ l1o.getD q 0) :
    (find_search_start_index (build_l1_array (values_buffer x) l1o nL) p op1 ≤ q
      ↔ op1.apply ((x.getD (l1o.getD p 0) none).getD 0)
          ((x.getD (l1o.getD q 0) none).getD 0) = true) := by
  have hlen : (build_l1_array (values_buffer x) l1o nL).length = l1o.length := by
    simp [build_l1_array]
  have hkey : ∀ k, k < l1o.length →
      x.getD (l1o.getD k 0) none
        = some ((x.getD (l1o.getD k 0) none).getD 0) :=
    fun k hk => some_getD (hnn _ (getD_mem_of_lt l1o 0 k hk))
  have hnodup2 : l1o.Pairwise (fun g h => g ≠ h) := hnodup
  have hne : ∀ a b, a < b → b < l1o.length → l1o.getD a 0 ≠ l1o.getD b 0 :=
    fun a b hab hb => pairwise_getD l1o 0 hnodup2 a b hab hb
  have hso : ∀ a b, a < b → b < l1o.length →
      sortLe (l1_descending op1) x (l1o.getD a 0) (l1o.getD b 0) = true :=
    fun a b hab hb => pairwise_getD l1o 0 hsorted a b hab hb
  cases op1
  case Lt =>
    have hvs : ∀ a b, a < b → b < l1o.length →
        ((x.getD (l1o.getD a 0) none).getD 0
            < (x.getD (l1o.getD b 0) none).getD 0
          ∨ ((x.getD (l1o.getD a 0) none).getD 0
              = (x.getD (l1o.getD b 0) none).getD 0
             ∧ l1o.getD a 0 < l1o.getD b 0)) := by
      intro a b hab hb
      have hs1 : sortLe false x (l1o.getD a 0) (l1o.getD b 0) = true :=
        hso a b hab hb
      rw [sortLe_some_iff_asc x _ _ _ _ (hkey a (by omega)) (hkey b hb)] at hs1
      rcases hs1 with h | ⟨h1, h2⟩
      · exact Or.inl h
      · exact Or.inr ⟨h1, lt_of_le_of_ne h2 (hne a b hab hb)⟩
    simp only [find_search_start_index]
    obtain ⟨hc1, hc2, hc3⟩ := partition_point_drop_spec (build_l1_array (values_buffer x) l1o nL) p
      (fun a => decide (a.value ≤ ((build_l1_array (values_buffer x) l1o nL).getD p default).value))
    set st := partition_point (fun a => decide (a.value ≤ ((build_l1_array (values_buffer x) l1o nL).getD p default).value)) ((build_l1_array (values_buffer x) l1o nL).drop p) + p with hst
    constructor
    · intro hle
      simp only [InequalityOperator.apply, decide_eq_true_eq]
      have hstl : st < l1o.length := by omega
      have hfs := hc2 (by rw [hlen]; omega)
      simp only [decide_eq_true_eq, decide_eq_false_iff_not, not_le, not_lt] at hfs
      rw [l1_value_at x l1o nL st hstl, l1_value_at x l1o nL p hp] at hfs
      rcases Nat.eq_or_lt_of_le hle with heq | hlt2
      · rw [heq] at hfs
        omega
      · have h2 := hvs st q hlt2 hq
        rcases h2 with h2 | ⟨h2, _⟩ <;> omega
    · intro happ
      simp only [InequalityOperator.apply, decide_eq_true_eq] at happ
      by_contra hq2
      push_neg at hq2
      have hpq : p ≤ q := by
        by_contra hqp
        push_neg at hqp
        have h2 := hvs q p hqp hp
        rcases h2 with h2 | ⟨h2, h3⟩ <;> omega
      have htrue := hc1 q hpq (by omega)
      simp only [decide_eq_true_eq] at htrue
      rw [l1_value_at x l1o nL q hq, l1_value_at x l1o nL p hp] at htrue
      omega
  case LtEq =>
    have hvs : ∀ a b, a < b → b < l1o.length →
        ((x.getD (l1o.getD a 0) none).getD 0
            < (x.getD (l1o.getD b 0) none).getD 0
          ∨ ((x.getD (l1o.getD a 0) none).getD 0
              = (x.getD (l1o.getD b 0) none).getD 0
             ∧ l1o.getD a 0 < l1o.getD b 0)) := by
      intro a b hab hb
      have hs1 : sortLe false x (l1o.getD a 0) (l1o.getD b 0) = true :=
        hso a b hab hb
      rw [sortLe_some_iff_asc x _ _ _ _ (hkey a (by omega)) (hkey b hb)] at hs1
      rcases hs1 with h | ⟨h1, h2⟩
      · exact Or.inl h
      · exact Or.inr ⟨h1, lt_of_le_of_ne h2 (hne a b hab hb)⟩
    simp only [find_search_start_index]
    obtain ⟨hc1, hc2, hc3⟩ := partition_point_drop_spec (build_l1_array (values_buffer x) l1o nL) p
      (fun a => decide (a.value < ((build_l1_array (values_buffer x) l1o nL).getD p default).value))
    set st := partition_point (fun a => decide (a.value < ((build_l1_array (values_buffer x) l1o nL).getD p default).value)) ((build_l1_array (values_buffer x) l1o nL).drop p) + p with hst
    constructor
    · intro hle
      simp only [InequalityOperator.apply, decide_eq_true_eq]
      have hstl : st < l1o.length := by omega
      have hfs := hc2 (by rw [hlen]; omega)
      simp only [decide_eq_true_eq, decide_eq_false_iff_not, not_le, not_lt] at hfs
      rw [l1_value_at x l1o nL st hstl, l1_value_at x l1o nL p hp] at hfs
      rcases Nat.eq_or_lt_of_le hle with heq | hlt2
      · rw [heq] at hfs
        omega
      · have h2 := hvs st q hlt2 hq
        rcases h2 with h2 | ⟨h2, _⟩ <;> omega
    · intro happ
      simp only [InequalityOperator.apply, decide_eq_true_eq] at happ
      by_contra hq2
      push_neg at hq2
      have hpq : p ≤ q := by
        by_contra hqp
        push_neg at hqp
        have h2 := hvs q p hqp hp
        rcases h2 with h2 | ⟨h2, h3⟩ <;> omega
      have htrue := hc1 q hpq (by omega)
      simp only [decide_eq_true_eq] at htrue
      rw [l1_value_at x l1o nL q hq, l1_value_at x l1o nL p hp] at htrue
      omega
  case Gt =>
    have hvs : ∀ a b, a < b → b < l1o.length →
        ((x.getD (l1o.getD b 0) none).getD 0
            < (x.getD (l1o.getD a 0) none).getD 0
          ∨ ((x.getD (l1o.getD a 0) none).getD 0
              = (x.getD (l1o.getD b 0) none).getD 0
             ∧ l1o.getD a 0 < l1o.getD b 0)) := by
      intro a b hab hb
      have hs1 : sortLe true x (l1o.getD a 0) (l1o.getD b 0) = true :=
        hso a b hab hb
      rw [sortLe_some_iff_desc x _ _ _ _ (hkey a (by omega)) (hkey b hb)] at hs1
      rcases hs1 with h | ⟨h1, h2⟩
      · exact Or.inl h
      · exact Or.inr ⟨h1, lt_of_le_of_ne h2 (hne a b hab hb)⟩
    simp only [find_search_start_index]
    obtain ⟨hc1, hc2, hc3⟩ := partition_point_drop_spec (build_l1_array (values_buffer x) l1o nL) p
      (fun a => decide (((build_l1_array (values_buffer x) l1o nL).getD p default).value ≤ a.value))
    set st := partition_point (fun a => decide (((build_l1_array (values_buffer x) l1o nL).getD p default).value ≤ a.value)) ((build_l1_array (values_buffer x) l1o nL).drop p) + p with hst
    constructor
    · intro hle
      simp only [InequalityOperator.apply, decide_eq_true_eq]
      have hstl : st < l1o.length := by omega
      have hfs := hc2 (by rw [hlen]; omega)
      simp only [decide_eq_true_eq, decide_eq_false_iff_not, not_le, not_lt] at hfs
      rw [l1_value_at x l1o nL st hstl, l1_value_at x l1o nL p hp] at hfs
      rcases Nat.eq_or_lt_of_le hle with heq | hlt2
      · rw [heq] at hfs
        omega
      · have h2 := hvs st q hlt2 hq
        rcases h2 with h2 | ⟨h2, _⟩ <;> omega
    · intro happ
      simp only [InequalityOperator.apply, decide_eq_true_eq] at happ
      by_contra hq2
      push_neg at hq2
      have hpq : p ≤ q := by
        by_contra hqp
        push_neg at hqp
        have h2 := hvs q p hqp hp
        rcases h2 with h2 | ⟨h2, h3⟩ <;> omega
      have htrue := hc1 q hpq (by omega)
      simp only [decide_eq_true_eq] at htrue
      rw [l1_value_at x l1o nL q hq, l1_value_at x l1o nL p hp] at htrue
      omega
  case GtEq =>
    have hvs : ∀ a b, a < b → b < l1o.length →
        ((x.getD (l1o.getD b 0) none).getD 0
            < (x.getD (l1o.getD a 0) none).getD 0
          ∨ ((x.getD (l1o.getD a 0) none).getD 0
              = (x.getD (l1o.getD b 0) none).getD 0
             ∧ l1o.getD a 0 < l1o.getD b 0)) := by
      intro a b hab hb
      have hs1 : sortLe true x (l1o.getD a 0) (l1o.getD b 0) = true :=
        hso a b hab hb
      rw [sortLe_some_iff_desc x _ _ _ _ (hkey a (by omega)) (hkey b hb)] at hs1
      rcases hs1 with h | ⟨h1, h2⟩
      · exact Or.inl h
      · exact Or.inr ⟨h1, lt_of_le_of_ne h2 (hne a b hab hb)⟩
    simp only [find_search_start_index]
    obtain ⟨hc1, hc2, hc3⟩ := partition_point_drop_spec (build_l1_array (values_buffer x) l1o nL) p
      (fun a => decide (((build_l1_array (values_buffer x) l1o nL).getD p default).value < a.value))
    set st := partition_point (fun a => decide (((build_l1_array (values_buffer x) l1o nL).getD p default).value < a.value)) ((build_l1_array (values_buffer x) l1o nL).drop p) + p with hst
    constructor
    · intro hle
      simp only [InequalityOperator.apply, decide_eq_true_eq]
      have hstl : st < l1o.length := by omega
      have hfs := hc2 (by rw [hlen]; omega)
      simp only [decide_eq_true_eq, decide_eq_false_iff_not, not_le, not_lt] at hfs
      rw [l1_value_at x l1o nL st hstl, l1_value_at x l1o nL p hp] at hfs
      rcases Nat.eq_or_lt_of_le hle with heq | hlt2
      · rw [heq] at hfs
        omega
      · have h2 := hvs st q hlt2 hq
        rcases h2 with h2 | ⟨h2, _⟩ <;> omega
    · intro happ
      simp only [InequalityOperator.apply, decide_eq_true_eq] at happ
      by_contra hq2
      push_neg at hq2
      have hpq : p ≤ q := by
        by_contra hqp
        push_neg at hqp
        have h2 := hvs q p hqp hp
        rcases h2 with h2 | ⟨h2, h3⟩ <;> omega
      have htrue := hc1 q hpq (by omega)
      simp only [decide_eq_true_eq] at htrue
      rw [l1_value_at x l1o nL q hq, l1_value_at x l1o nL p hp] at htrue
      omega

theorem l2_strict_iff (op2 : InequalityOperator)
    (hstrict : op2.is_strict = true) (col : List (Option Int))
    (l2o : List Nat)
    (hsorted : l2o.Pairwise
      (fun k l => sortLe (l2_descending op2) col k l = true))
    (hnn : ∀ k ∈ l2o, col.getD k none ≠ none)
    (s t : Nat) (hs : s < l2o.length) (ht : t < l2o.length)
    (hqp : l2o.getD t 0 < l2o.getD s 0) :
    (s < t ↔ op2.apply ((col.getD (l2o.getD t 0) none).getD 0)
        ((col.getD (l2o.getD s 0) none).getD 0) = true) := by
  have hkey : ∀ k, k < l2o.length →
      col.getD (l2o.getD k 0) none
        = some ((col.getD (l2o.getD k 0) none).getD 0) :=
    fun k hk => some_getD (hnn _ (getD_mem_of_lt l2o 0 k hk))
  have hso : ∀ a b, a < b → b < l2o.length →
      sortLe (l2_descending op2) col (l2o.getD a 0) (l2o.getD b 0) = true :=
    fun a b hab hb => pairwise_getD l2o 0 hsorted a b hab hb
  cases op2
  case Lt =>
    constructor
    · intro hst
      simp only [InequalityOperator.apply, decide_eq_true_eq]
      have hs1 : sortLe true col (l2o.getD s 0) (l2o.getD t 0) = true :=
        hso s t hst ht
      rw [sortLe_some_iff_desc col _ _ _ _ (hkey s hs) (hkey t ht)] at hs1
      rcases hs1 with h | ⟨h1, h2⟩
      · exact h
      · omega
    · intro happ
      simp only [InequalityOperator.apply, decide_eq_true_eq] at happ
      rcases Nat.lt_trichotomy s t with h | h | h
      · exact h
      · rw [h] at happ
        omega
      · exfalso
        have hs1 : sortLe true col (l2o.getD t 0) (l2o.getD s 0) = true :=
          hso t s h hs
        rw [sortLe_some_iff_desc col _ _ _ _ (hkey t ht) (hkey s hs)] at hs1
        rcases hs1 with h2 | ⟨h2, h3⟩ <;> omega
  case Gt =>
    constructor
    · intro hst
      simp only [InequalityOperator.apply, decide_eq_true_eq]
      have hs1 : sortLe false col (l2o.getD s 0) (l2o.getD t 0) = true :=
        hso s t hst ht
      rw [sortLe_some_iff_asc col _ _ _ _ (hkey s hs) (hkey t ht)] at hs1
      rcases hs1 with h | ⟨h1, h2⟩
      · exact h
      · omega
    · intro happ
      simp only [InequalityOperator.apply, decide_eq_true_eq] at happ
      rcases Nat.lt_trichotomy s t with h | h | h
      · exact h
      · rw [h] at happ
        omega
      · exfalso
        have hs1 : sortLe false col (l2o.getD t 0) (l2o.getD s 0) = true :=
          hso t s h hs
        rw [sortLe_some_iff_asc col _ _ _ _ (hkey t ht) (hkey s hs)] at hs1
        rcases hs1 with h2 | ⟨h2, h3⟩ <;> omega
  case LtEq => simp [InequalityOperator.is_strict] at hstrict
  case GtEq => simp [InequalityOperator.is_strict] at hstrict

theorem l2_non_strict_iff (op2 : InequalityOperator)
    (hstrict : op2.is_strict = false) (col : List (Option Int))
    (l2o : List Nat)
    (hsorted : l2o.Pairwise
      (fun k l => sortLe (l2_descending op2) col k l = true))
    (hnn : ∀ k ∈ l2o, col.getD k none ≠ none)
    (yvals : List Int)
    (hyv : ∀ k, yvals.getD k 0 = (col.getD k none).getD 0)
    (s t : Nat) (hs : s < l2o.length) (ht : t < l2o.length) :
    (s < runEnd yvals l2o t ↔
      op2.apply ((col.getD (l2o.getD t 0) none).getD 0)
        ((col.getD (l2o.getD s 0) none).getD 0) = true) := by
  have hkey : ∀ k, k < l2o.length →
      col.getD (l2o.getD k 0) none
        = some ((col.getD (l2o.getD k 0) none).getD 0) :=
    fun k hk => some_getD (hnn _ (getD_mem_of_lt l2o 0 k hk))
  have hso : ∀ a b, a < b → b < l2o.length →
      sortLe (l2_descending op2) col (l2o.getD a 0) (l2o.getD b 0) = true :=
    fun a b hab hb => pairwise_getD l2o 0 hsorted a b hab hb
  have hrun_mem : ∀ u, t < u → u < runEnd yvals l2o t → u < l2o.length →
      (col.getD (l2o.getD u 0) none).getD 0
        = (col.getD (l2o.getD t 0) none).getD 0 := by
    intro u hu1 hu2 hu3
    have htw := takeWhile_pred_true
      (fun p => decide (yvals.getD p 0 = yvals.getD (l2o.getD t 0) 0))
      0 (l2o.drop (t + 1)) (u - (t + 1)) (by
        unfold runEnd at hu2
        omega)
    rw [getD_drop] at htw
    have he : t + 1 + (u - (t + 1)) = u := by omega
    rw [he] at htw
    simp only [decide_eq_true_eq] at htw
    rw [hyv, hyv] at htw
    exact htw
  have hrun_end : runEnd yvals l2o t < l2o.length →
      (col.getD (l2o.getD (runEnd yvals l2o t) 0) none).getD 0
        ≠ (col.getD (l2o.getD t 0) none).getD 0 := by
    intro hlt
    have hgt := runEnd_gt yvals l2o t
    have htw := takeWhile_pred_false
      (fun p => decide (yvals.getD p 0 = yvals.getD (l2o.getD t 0) 0))
      0 (l2o.drop (t + 1)) (by
        rw [List.length_drop]
        unfold runEnd at hlt
        omega)
    rw [getD_drop] at htw
    have he : t + 1 + ((l2o.drop (t + 1)).takeWhile
        (fun p => decide (yvals.getD p 0 = yvals.getD (l2o.getD t 0) 0))).length
        = runEnd yvals l2o t := by
      unfold runEnd
      omega
    rw [he] at htw
    simp only [decide_eq_false_iff_not] at htw
    rw [hyv, hyv] at htw
    exact htw
  have hcore : ∀ d2 : Bool, l2_descending op2 = d2 →
      (∀ a b, a < b → b < l2o.length →
        (if d2 = true
          then (col.getD (l2o.getD b 0) none).getD 0
            ≤ (col.getD (l2o.getD a 0) none).getD 0
          else (col.getD (l2o.getD a 0) none).getD 0
            ≤ (col.getD (l2o.getD b 0) none).getD 0)) := by
    intro d2 hd2 a b hab hb
    have hs1 := hso a b hab hb
    rw [hd2] at hs1
    cases d2
    · rw [sortLe_some_iff_asc col _ _ _ _ (hkey a (by omega)) (hkey b hb)] at hs1
      simp only [if_neg (by decide : ¬ (false : Bool) = true)]
      rcases hs1 with h | ⟨h, _⟩ <;> omega
    · rw [sortLe_some_iff_desc col _ _ _ _ (hkey a (by omega)) (hkey b hb)] at hs1
      simp only [eq_self_iff_true, if_true]
      rcases hs1 with h | ⟨h, _⟩ <;> omega
  cases op2
  case Lt => simp [InequalityOperator.is_strict] at hstrict
  case Gt => simp [InequalityOperator.is_strict] at hstrict
  case LtEq =>
    have hmono := hcore true rfl
    simp only [eq_self_iff_true, if_true] at hmono
    constructor
    · intro hst
      simp only [InequalityOperator.apply, decide_eq_true_eq]
      rcases Nat.lt_trichotomy s t with h | h | h
      · exact hmono s t h ht
      · rw [h]
      · have := hrun_mem s h hst hs
        omega
    · intro happ
      simp only [InequalityOperator.apply, decide_eq_true_eq] at happ
      by_contra hcon
      push_neg at hcon
      have hel : runEnd yvals l2o t < l2o.length := by omega
      have hend := hrun_end hel
      have hgt := runEnd_gt yvals l2o t
      have h1 := hmono t (runEnd yvals l2o t) hgt hel
      rcases Nat.eq_or_lt_of_le hcon with heq | hlt2
      · rw [← heq] at happ
        omega
      · have h2 := hmono (runEnd yvals l2o t) s hlt2 hs
        omega
  case GtEq =>
    have hmono := hcore false rfl
    simp only [if_neg (by decide : ¬ (false : Bool) = true)] at hmono
    constructor
    · intro hst
      simp only [InequalityOperator.apply, decide_eq_true_eq]
      rcases Nat.lt_trichotomy s t with h | h | h
      · exact hmono s t h ht
      · rw [h]
      · have := hrun_mem s h hst hs
        omega
    · intro happ
      simp only [InequalityOperator.apply, decide_eq_true_eq] at happ
      by_contra hcon
      push_neg at hcon
      have hel : runEnd yvals l2o t < l2o.length := by omega
      have hend := hrun_end hel
      have hgt := runEnd_gt yvals l2o t
      have h1 := hmono t (runEnd yvals l2o t) hgt hel
      rcases Nat.eq_or_lt_of_le hcon with heq | hlt2
      · rw [← heq] at happ
        omega
      · have h2 := hmono (runEnd yvals l2o t) s hlt2 hs
        omega

theorem mem_take_pos (l : List Nat) (K x : Nat) (hx : x ∈ l.take K) :
    ∃ s, s < K ∧ s < l.length ∧ l.getD s 0 = x := by
  rw [List.mem_iff_getElem] at hx
  obtain ⟨s, hs, he⟩ := hx
  rw [List.length_take] at hs
  have hsl : s < l.length := by omega
  refine ⟨s, by omega, hsl, ?_⟩
  rw [List.getD_eq_getElem _ _ hsl, ← he, List.getElem_take]

theorem getD_mem_take (l : List Nat) (K s : Nat) (hs : s < K)
    (hsl : s < l.length) : l.getD s 0 ∈ l.take K := by
  rw [List.mem_iff_getElem]
  refine ⟨s, by rw [List.length_take]; omega, ?_⟩
  rw [List.getElem_take, List.getD_eq_getElem _ _ hsl]

theorem dropped_sorted (d : Bool) (col : List (Option Int)) :
    ((arg_sort d col).drop (null_count col)).Pairwise
      (fun i j => sortLe d col i j = true) :=
  (arg_sort_sorted d col).sublist (List.drop_sublist _ _)

theorem mem_pos_getD (l : List Nat) (x : Nat) (hx : x ∈ l) :
    ∃ s, s < l.length ∧ l.getD s 0 = x := by
  rw [List.mem_iff_getElem] at hx
  obtain ⟨s, hs, he⟩ := hx
  exact ⟨s, hs, by rw [List.getD_eq_getElem _ _ hs, he]⟩

theorem mem_oracle (xL yL xR yR : List (Option Int))
    (op1 op2 : InequalityOperator) (i j : Nat) :
    ((i, j) ∈ oracle_matches xL yL xR yR op1 op2 ↔
      (i < xL.length ∧ j < xR.length ∧
       xL.getD i none ≠ none ∧ yL.getD i none ≠ none ∧
       xR.getD j none ≠ none ∧ yR.getD j none ≠ none ∧
       op1.apply ((xL.getD i none).getD 0) ((xR.getD j none).getD 0) = true ∧
       op2.apply ((yL.getD i none).getD 0) ((yR.getD j none).getD 0) = true)) := by
  unfold oracle_matches
  rw [List.mem_flatMap]
  constructor
  · rintro ⟨a, ha, hmem⟩
    rw [List.mem_range] at ha
    rw [List.mem_filterMap] at hmem
    obtain ⟨b, hb, hfb⟩ := hmem
    rw [List.mem_range] at hb
    rcases hxa : xL.getD a none with _ | xa
    · rw [hxa] at hfb
      simp at hfb
    rcases hya : yL.getD a none with _ | ya
    · rw [hxa, hya] at hfb
      simp at hfb
    rcases hxb : xR.getD b none with _ | xb
    · rw [hxa, hya, hxb] at hfb
      simp at hfb
    rcases hyb : yR.getD b none with _ | yb
    · rw [hxa, hya, hxb, hyb] at hfb
      simp at hfb
    rw [hxa, hya, hxb, hyb] at hfb
    simp only [] at hfb
    split at hfb
    · next hcond =>
      rw [Option.some.injEq, Prod.mk.injEq] at hfb
      obtain ⟨he1, he2⟩ := hfb
      subst he1
      subst he2
      rw [Bool.and_eq_true] at hcond
      refine ⟨ha, hb, ?_, ?_, ?_, ?_, ?_, ?_⟩
      · rw [hxa]
        exact fun h => Option.noConfusion h
      · rw [hya]
        exact fun h => Option.noConfusion h
      · rw [hxb]
        exact fun h => Option.noConfusion h
      · rw [hyb]
        exact fun h => Option.noConfusion h
      · rw [hxa, hxb]
        exact hcond.1
      · rw [hya, hyb]
        exact hcond.2
    · exact Option.noConfusion hfb
  · rintro ⟨hi, hj, hx1, hy1, hx2, hy2, ho1, ho2⟩
    refine ⟨i, List.mem_range.mpr hi, ?_⟩
    rw [List.mem_filterMap]
    refine ⟨j, List.mem_range.mpr hj, ?_⟩
    rw [some_getD hx1, some_getD hy1, some_getD hx2, some_getD hy2]
    simp only []
    rw [if_pos]
    rw [Bool.and_eq_true]
    exact ⟨ho1, ho2⟩

theorem kernel_mem_iff_core (xL yL xR yR : List (Option Int))
    (op1 op2 : InequalityOperator)
    (hyL : yL.length = xL.length)
    (l1o l2o : List Nat)
    (hL1sorted : l1o.Pairwise
      (fun g h => sortLe (l1_descending op1) (xL ++ xR) g h = true))
    (hL1nodup : l1o.Nodup)
    (hL1nn : ∀ g ∈ l1o, (xL ++ xR).getD g none ≠ none)
    (hL1lt : ∀ g ∈ l1o, g < (xL ++ xR).length)
    (hL1comp : ∀ g, g < (xL ++ xR).length →
      (xL ++ xR).getD g none ≠ none → g ∈ l1o)
    (hL2nn : ∀ k ∈ l2o,
      (l1o.map (fun i => (yL ++ yR).getD i none)).getD k none ≠ none)
    (hL2lt : ∀ k ∈ l2o, k < l1o.length)
    (hL2comp : ∀ k, k < l1o.length →
      (l1o.map (fun i => (yL ++ yR).getD i none)).getD k none ≠ none →
      k ∈ l2o)
    (B : Nat → Nat)
    (hB : ∀ s t, s < l2o.length → t < l2o.length →
      l2o.getD t 0 < l2o.getD s 0 →
      (s < B t ↔
        op2.apply
          (((l1o.map (fun i => (yL ++ yR).getD i none)).getD (l2o.getD t 0)
            none).getD 0)
          (((l1o.map (fun i => (yL ++ yR).getD i none)).getD (l2o.getD s 0)
            none).getD 0) = true))
    (pr : Nat × Nat) :
    (pr ∈ (List.range' 0 l2o.length).flatMap
        (fun t => entryPairs (build_l1_array (values_buffer (xL ++ xR)) l1o
            xL.length) op1
          (processedBits (build_l1_array (values_buffer (xL ++ xR)) l1o
            xL.length) (l2o.take (B t))
            (FilteredBitArray.from_len_zeroed l1o.length))
          (l2o.getD t 0)) ↔
      (pr.1 < xL.length ∧ pr.2 < xR.length ∧
       xL.getD pr.1 none ≠ none ∧ yL.getD pr.1 none ≠ none ∧
       xR.getD pr.2 none ≠ none ∧ yR.getD pr.2 none ≠ none ∧
       op1.apply ((xL.getD pr.1 none).getD 0) ((xR.getD pr.2 none).getD 0)
         = true ∧
       op2.apply ((yL.getD pr.1 none).getD 0) ((yR.getD pr.2 none).getD 0)
         = true)) := by
  obtain ⟨i, j⟩ := pr
  have hl2y : ∀ k ∈ l2o,
      (yL ++ yR).getD (l1o.getD k 0) none ≠ none := by
    intro k hk
    have h := hL2nn k hk
    rwa [map_getD_getD _ _ _ (hL2lt k hk)] at h
  rw [mem_flat_entryPairs _ op1 _ _ B (i, j)]
  constructor
  · rintro ⟨t, ht, hmem⟩
    rw [mem_entryPairs] at hmem
    obtain ⟨hpos, q, hstart, hqlen, hqbit, hpre⟩ := hmem
    rw [processedBits_getD] at hqbit
    rcases hqbit with hz | ⟨hqmem, hqneg, _⟩
    · rw [from_len_zeroed_getD] at hz
      exact absurd hz (by simp)
    rw [processedBits_length, from_len_zeroed_length] at hqlen
    have hpmem : l2o.getD t 0 ∈ l2o := getD_mem_of_lt _ 0 t ht
    have hq2 : q ∈ l2o := List.mem_of_mem_take hqmem
    obtain ⟨s, hsB, hsl, hqs⟩ := mem_take_pos l2o (B t) q hqmem
    have hplen : l2o.getD t 0 < l1o.length := hL2lt _ hpmem
    have hpb := build_l1_array_getD (values_buffer (xL ++ xR)) l1o xL.length
      (l2o.getD t 0) hplen
    have hqb := build_l1_array_getD (values_buffer (xL ++ xR)) l1o xL.length
      q hqlen
    have hpleft : l1o.getD (l2o.getD t 0) 0 < xL.length := by
      by_contra hc
      rw [hpb] at hpos
      simp only [if_neg hc] at hpos
      omega
    have hqright : xL.length ≤ l1o.getD q 0 := by
      by_contra hc
      push_neg at hc
      rw [hqb] at hqneg
      simp only [if_pos hc] at hqneg
      omega
    have hE1 := (start_index_iff (xL ++ xR) xL.length op1 l1o hL1sorted
      hL1nodup hL1nn (l2o.getD t 0) q hplen hqlen hpleft hqright).mp hstart
    have hge := find_search_start_index_ge
      (build_l1_array (values_buffer (xL ++ xR)) l1o xL.length)
      (l2o.getD t 0) op1
    have hne : l2o.getD t 0 ≠ q := by
      intro he
      rw [← he] at hqneg
      exact hqneg hpos
    have hqgt : l2o.getD t 0 < q := by omega
    have hE2 := (hB s t hsl ht (by rw [hqs]; exact hqgt)).mp hsB
    rw [hqs, map_getD_getD _ _ _ hplen, map_getD_getD _ _ _ hqlen] at hE2
    rw [List.getD_append _ _ _ _
      (show l1o.getD (l2o.getD t 0) 0 < yL.length by omega)] at hE2
    rw [List.getD_append_right _ _ _ _
      (show yL.length ≤ l1o.getD q 0 by omega)] at hE2
    rw [hyL] at hE2
    rw [List.getD_append _ _ _ _ hpleft,
      List.getD_append_right _ _ _ _ hqright] at hE1
    have hres := emitted_pair_analysis xL yL xR yR hyL l1o hL1nn hL1lt l2o
      hL2lt hl2y (l2o.getD t 0) q hpmem hq2 hpos hqneg
    have hlr2 : (((build_l1_array (values_buffer (xL ++ xR)) l1o
        xL.length).getD (l2o.getD t 0) default).row_index - 1).toNat
        = l1o.getD (l2o.getD t 0) 0 := by
      rw [hpb]
      simp only [if_pos hpleft]
      omega
    have hrr2 : (-((build_l1_array (values_buffer (xL ++ xR)) l1o
        xL.length).getD q default).row_index).toNat - 1
        = l1o.getD q 0 - xL.length := by
      rw [hqb]
      simp only [if_neg (show ¬ l1o.getD q 0 < xL.length by omega)]
      omega
    rw [Prod.mk.injEq] at hpre
    obtain ⟨hi1, hj1⟩ := hpre
    subst hi1
    subst hj1
    rw [hlr2, hrr2] at hres ⊢
    exact ⟨hres.1, hres.2.2.2.1, hres.2.1, hres.2.2.1, hres.2.2.2.2.1,
      hres.2.2.2.2.2, hE1, hE2⟩
  · rintro ⟨hi, hj, hx1, hy1, hx2, hy2, ho1, ho2⟩
    have hgp_mem : i ∈ l1o := by
      refine hL1comp i (by rw [List.length_append]; omega) ?_
      rwa [List.getD_append _ _ _ _ hi]
    have hgq_mem : (xL.length + j) ∈ l1o := by
      refine hL1comp _ (by rw [List.length_append]; omega) ?_
      rw [List.getD_append_right _ _ _ _ (by omega)]
      have he : xL.length + j - xL.length = j := by omega
      rwa [he]
    obtain ⟨p, hp, hpe⟩ := mem_pos_getD l1o i hgp_mem
    obtain ⟨q, hq, hqe⟩ := mem_pos_getD l1o (xL.length + j) hgq_mem
    have hpyo : (l1o.map (fun g => (yL ++ yR).getD g none)).getD p none
        ≠ none := by
      rw [map_getD_getD _ _ _ hp, hpe,
        List.getD_append _ _ _ _ (show i < yL.length by omega)]
      exact hy1
    have hqyo : (l1o.map (fun g => (yL ++ yR).getD g none)).getD q none
        ≠ none := by
      rw [map_getD_getD _ _ _ hq, hqe,
        List.getD_append_right _ _ _ _ (show yL.length ≤ xL.length + j
          by omega)]
      have he : xL.length + j - yL.length = j := by omega
      rw [he]
      exact hy2
    have hp2 : p ∈ l2o := hL2comp p hp hpyo
    have hq2 : q ∈ l2o := hL2comp q hq hqyo
    obtain ⟨t, ht, hte⟩ := mem_pos_getD l2o p hp2
    obtain ⟨s, hs, hse⟩ := mem_pos_getD l2o q hq2
    have hpb := build_l1_array_getD (values_buffer (xL ++ xR)) l1o xL.length
      p hp
    have hqb := build_l1_array_getD (values_buffer (xL ++ xR)) l1o xL.length
      q hq
    have hpos : 0 < ((build_l1_array (values_buffer (xL ++ xR)) l1o
        xL.length).getD p default).row_index := by
      rw [hpb, hpe]
      simp only [if_pos hi]
      omega
    have hqneg : ¬ 0 < ((build_l1_array (values_buffer (xL ++ xR)) l1o
        xL.length).getD q default).row_index := by
      rw [hqb, hqe]
      simp only [if_neg (show ¬ xL.length + j < xL.length by omega)]
      omega
    have hop1x : op1.apply (((xL ++ xR).getD (l1o.getD p 0) none).getD 0)
        (((xL ++ xR).getD (l1o.getD q 0) none).getD 0) = true := by
      rw [hpe, hqe, List.getD_append _ _ _ _ hi,
        List.getD_append_right _ _ _ _ (by omega)]
      have he : xL.length + j - xL.length = j := by omega
      rw [he]
      exact ho1
    have hE1 := (start_index_iff (xL ++ xR) xL.length op1 l1o hL1sorted
      hL1nodup hL1nn p q hp hq (by rw [hpe]; exact hi)
      (by rw [hqe]; omega)).mpr hop1x
    have hpq : p < q := by
      have hge := find_search_start_index_ge
        (build_l1_array (values_buffer (xL ++ xR)) l1o xL.length) p op1
      have hne : p ≠ q := by
        intro he
        have : i = xL.length + j := by rw [← hpe, he, hqe]
        omega
      omega
    have hop2yo : op2.apply
        (((l1o.map (fun g => (yL ++ yR).getD g none)).getD (l2o.getD t 0)
          none).getD 0)
        (((l1o.map (fun g => (yL ++ yR).getD g none)).getD (l2o.getD s 0)
          none).getD 0) = true := by
      rw [hte, hse, map_getD_getD _ _ _ hp, map_getD_getD _ _ _ hq, hpe, hqe,
        List.getD_append _ _ _ _ (show i < yL.length by omega),
        List.getD_append_right _ _ _ _ (show yL.length ≤ xL.length + j
          by omega)]
      have he : xL.length + j - yL.length = j := by omega
      rw [he]
      exact ho2
    have hsB : s < B t :=
      (hB s t hs ht (by rw [hte, hse]; exact hpq)).mpr hop2yo
    refine ⟨t, ht, ?_⟩
    rw [mem_entryPairs, hte]
    refine ⟨hpos, q, hE1, ?_, ?_, ?_⟩
    · rw [processedBits_length, from_len_zeroed_length]
      exact hq
    · rw [processedBits_getD]
      right
      refine ⟨?_, hqneg, ?_⟩
      · rw [← hse]
        exact getD_mem_take l2o (B t) s hsB hs
      · rw [from_len_zeroed_length]
        exact hq
    · have h1 : (((build_l1_array (values_buffer (xL ++ xR)) l1o
          xL.length).getD p default).row_index - 1).toNat = i := by
        rw [hpb, hpe]
        simp only [if_pos hi]
        omega
      have h2 : (-((build_l1_array (values_buffer (xL ++ xR)) l1o
          xL.length).getD q default).row_index).toNat - 1 = j := by
        rw [hqb, hqe]
        simp only [if_neg (show ¬ xL.length + j < xL.length by omega)]
        omega
      rw [h1, h2]

theorem nodup_getD_ne (l : List Nat) (h : l.Nodup) (a b : Nat) (hab : a ≠ b)
    (ha : a < l.length) (hb : b < l.length) : l.getD a 0 ≠ l.getD b 0 := by
  have h2 : l.Pairwise (fun g h => g ≠ h) := h
  rcases Nat.lt_or_ge a b with hlt | hge
  · exact pairwise_getD l 0 h2 a b hlt hb
  · have hlt2 : b < a := by omega
    exact (pairwise_getD l 0 h2 b a hlt2 ha).symm

theorem setBitsFrom_nodup (bits : List Bool) (start : Nat) :
    (setBitsFrom bits start).Nodup :=
  List.Nodup.filter _ (List.nodup_range _)

theorem kernel_pairs_nodup (v : List Int) (nL : Nat) (l1o l2o : List Nat)
    (hL1nodup : l1o.Nodup) (hL2nodup : l2o.Nodup)
    (hL2lt : ∀ k ∈ l2o, k < l1o.length)
    (op1 : InequalityOperator) (bitsOf : Nat → List Bool)
    (hbl : ∀ t, (bitsOf t).length ≤ l1o.length)
    (hneg : ∀ t q, (bitsOf t).getD q false = true →
      ¬ 0 < ((build_l1_array v l1o nL).getD q default).row_index) :
    ((List.range' 0 l2o.length).flatMap
      (fun t => entryPairs (build_l1_array v l1o nL) op1 (bitsOf t)
        (l2o.getD t 0))).Nodup := by
  have hrr : ∀ q, q < l1o.length →
      ¬ 0 < ((build_l1_array v l1o nL).getD q default).row_index →
      ((-((build_l1_array v l1o nL).getD q default).row_index).toNat - 1
          = l1o.getD q 0 - nL ∧ nL ≤ l1o.getD q 0) := by
    intro q hq hnegq
    have hqb := build_l1_array_getD v l1o nL q hq
    by_cases hc : l1o.getD q 0 < nL
    · exfalso
      rw [hqb] at hnegq
      simp only [if_pos hc] at hnegq
      omega
    · rw [hqb]
      simp only [if_neg hc]
      exact ⟨by omega, by omega⟩
  have hlr : ∀ t, t < l2o.length →
      0 < ((build_l1_array v l1o nL).getD (l2o.getD t 0) default).row_index →
      (((build_l1_array v l1o nL).getD (l2o.getD t 0) default).row_index
          - 1).toNat = l1o.getD (l2o.getD t 0) 0 := by
    intro t ht hpos
    have hpl : l2o.getD t 0 < l1o.length := hL2lt _ (getD_mem_of_lt _ 0 t ht)
    have hpb := build_l1_array_getD v l1o nL (l2o.getD t 0) hpl
    by_cases hc : l1o.getD (l2o.getD t 0) 0 < nL
    · rw [hpb]
      simp only [if_pos hc]
      omega
    · exfalso
      rw [hpb] at hpos
      simp only [if_neg hc] at hpos
      omega
  rw [List.nodup_flatMap]
  constructor
  · intro t _
    unfold entryPairs
    split
    · unfold fmPairs
      refine List.Nodup.map_on ?_ (setBitsFrom_nodup _ _)
      intro a hamem b hbmem heq
      rw [mem_setBitsFrom] at hamem hbmem
      obtain ⟨_, halt, haset⟩ := hamem
      obtain ⟨_, hblt, hbset⟩ := hbmem
      have halt2 : a < l1o.length := lt_of_lt_of_le halt (hbl t)
      have hblt2 : b < l1o.length := lt_of_lt_of_le hblt (hbl t)
      obtain ⟨hra, hga⟩ := hrr a halt2 (hneg t a haset)
      obtain ⟨hrb, hgb⟩ := hrr b hblt2 (hneg t b hbset)
      rw [Prod.mk.injEq] at heq
      have h2 := heq.2
      rw [hra, hrb] at h2
      by_contra hab
      have hgne := nodup_getD_ne l1o hL1nodup a b hab halt2 hblt2
      omega
    · exact List.nodup_nil
  · rw [List.pairwise_iff_get]
    intro a b hab
    simp only [Function.onFun]
    rw [List.disjoint_left]
    intro pr hpra hprb
    have hga : (List.range' 0 l2o.length).get a = (a : Nat) := by
      rw [List.get_eq_getElem, List.getElem_range']
      omega
    have hgb : (List.range' 0 l2o.length).get b = (b : Nat) := by
      rw [List.get_eq_getElem, List.getElem_range']
      omega
    rw [hga] at hpra
    rw [hgb] at hprb
    have hal : (a : Nat) < l2o.length :=
      lt_of_lt_of_eq a.2 (List.length_range' _ _ _)
    have hbl2 : (b : Nat) < l2o.length :=
      lt_of_lt_of_eq b.2 (List.length_range' _ _ _)
    rw [mem_entryPairs] at hpra hprb
    obtain ⟨hposa, qa, _, _, _, hpa⟩ := hpra
    obtain ⟨hposb, qb, _, _, _, hpb⟩ := hprb
    have h1a := hlr _ hal hposa
    have h1b := hlr _ hbl2 hposb
    have hfa : pr.1 = (((build_l1_array v l1o nL).getD (l2o.getD (a : Nat) 0)
        default).row_index - 1).toNat := by
      rw [hpa]
    have hfb : pr.1 = (((build_l1_array v l1o nL).getD (l2o.getD (b : Nat) 0)
        default).row_index - 1).toNat := by
      rw [hpb]
    have hgeq : l1o.getD (l2o.getD (a : Nat) 0) 0
        = l1o.getD (l2o.getD (b : Nat) 0) 0 := by
      rw [← h1a, ← h1b, ← hfa, ← hfb]
    have hvne : (a : Nat) ≠ (b : Nat) := by
      intro he
      rw [Fin.ext he] at hab
      exact lt_irrefl _ hab
    have hpne : l2o.getD (a : Nat) 0 ≠ l2o.getD (b : Nat) 0 :=
      nodup_getD_ne l2o hL2nodup _ _ hvne hal hbl2
    have hpla : l2o.getD (a : Nat) 0 < l1o.length :=
      hL2lt _ (getD_mem_of_lt _ 0 _ hal)
    have hplb : l2o.getD (b : Nat) 0 < l1o.length :=
      hL2lt _ (getD_mem_of_lt _ 0 _ hbl2)
    exact (nodup_getD_ne l1o hL1nodup _ _ hpne hpla hplb) hgeq

theorem oracle_inner_eq (xL yL xR yR : List (Option Int))
    (op1 op2 : InequalityOperator) (i j : Nat) (pr : Nat × Nat)
    (h : (match xL.getD i none, yL.getD i none, xR.getD j none,
        yR.getD j none with
      | some xl, some yl, some xr, some yr =>
        if op1.apply xl xr && op2.apply yl yr then some (i, j) else none
      | _, _, _, _ => none) = some pr) : pr = (i, j) := by
  rcases hxa : xL.getD i none with _ | xa
  · rw [hxa] at h
    exact Option.noConfusion h
  rcases hya : yL.getD i none with _ | ya
  · rw [hxa, hya] at h
    exact Option.noConfusion h
  rcases hxb : xR.getD j none with _ | xb
  · rw [hxa, hya, hxb] at h
    exact Option.noConfusion h
  rcases hyb : yR.getD j none with _ | yb
  · rw [hxa, hya, hxb, hyb] at h
    exact Option.noConfusion h
  rw [hxa, hya, hxb, hyb] at h
  simp only [] at h
  split at h
  · rw [Option.some.injEq] at h
    exact h.symm
  · exact Option.noConfusion h

theorem oracle_nodup (xL yL xR yR : List (Option Int))
    (op1 op2 : InequalityOperator) :
    (oracle_matches xL yL xR yR op1 op2).Nodup := by
  unfold oracle_matches
  rw [List.nodup_flatMap]
  constructor
  · intro i _
    refine List.Nodup.filterMap ?_ (List.nodup_range _)
    intro a a' b hb hb'
    rw [Option.mem_def] at hb hb'
    have e1 := oracle_inner_eq xL yL xR yR op1 op2 i a b hb
    have e2 := oracle_inner_eq xL yL xR yR op1 op2 i a' b hb'
    rw [e1, Prod.mk.injEq] at e2
    exact e2.2
  · rw [List.pairwise_iff_get]
    intro a b hab
    simp only [Function.onFun]
    rw [List.disjoint_left]
    intro pr hpa hpb
    rw [List.mem_filterMap] at hpa hpb
    obtain ⟨ja, _, hfa⟩ := hpa
    obtain ⟨jb, _, hfb⟩ := hpb
    have hga : (List.range xL.length).get a = (a : Nat) := by
      rw [List.get_eq_getElem, List.getElem_range]
    have hgb : (List.range xL.length).get b = (b : Nat) := by
      rw [List.get_eq_getElem, List.getElem_range]
    rw [hga] at hfa
    rw [hgb] at hfb
    have e1 := oracle_inner_eq xL yL xR yR op1 op2 _ ja pr hfa
    have e2 := oracle_inner_eq xL yL xR yR op1 op2 _ jb pr hfb
    rw [e1, Prod.mk.injEq] at e2
    have he := e2.1
    rw [Fin.ext he] at hab
    exact lt_irrefl _ hab

theorem pipeline_zip_nodup (xL yL xR yR : List (Option Int))
    (op1 op2 : InequalityOperator) :
    ((iejoin_pipeline xL.length [xL, yL] [xR, yR] op1 op2 none).1.zip
      (iejoin_pipeline xL.length [xL, yL] [xR, yR] op1 op2 none).2).Nodup := by
  simp only [iejoin_pipeline, List.getD_cons_zero, List.getD_cons_succ,
    series_slice_nulls]
  cases hstrict : op2.is_strict with
  | true =>
    rw [ie_join_impl_t_none_pairs_strict _ _ op1 op2 _ _ _ hstrict,
      zip_map_fst_snd]
    refine kernel_pairs_nodup _ _ _ _ (dropped_nodup _ _) (dropped_nodup _ _)
      (fun k hk => by
        have h := dropped_mem_lt _ _ k hk
        rwa [List.length_map] at h)
      op1 _
      (fun t => le_of_eq
        (by rw [processedBits_length, from_len_zeroed_length]))
      (fun t q hset => by
        rw [processedBits_getD] at hset
        rcases hset with hz | ⟨_, hn, _⟩
        · rw [from_len_zeroed_getD] at hz
          exact absurd hz (by simp)
        · exact hn)
  | false =>
    rw [ie_join_impl_t_none_pairs_non_strict _ _ op1 op2 _ _ _ hstrict,
      zip_map_fst_snd]
    refine kernel_pairs_nodup _ _ _ _ (dropped_nodup _ _) (dropped_nodup _ _)
      (fun k hk => by
        have h := dropped_mem_lt _ _ k hk
        rwa [List.length_map] at h)
      op1 _
      (fun t => le_of_eq
        (by rw [processedBits_length, from_len_zeroed_length]))
      (fun t q hset => by
        rw [processedBits_getD] at hset
        rcases hset with hz | ⟨_, hn, _⟩
        · rw [from_len_zeroed_getD] at hz
          exact absurd hz (by simp)
        · exact hn)

theorem pipeline_mem_iff (xL yL xR yR : List (Option Int))
    (op1 op2 : InequalityOperator)
    (hyL : yL.length = xL.length) (pr : Nat × Nat) :
    (pr ∈ (iejoin_pipeline xL.length [xL, yL] [xR, yR] op1 op2 none).1.zip
        (iejoin_pipeline xL.length [xL, yL] [xR, yR] op1 op2 none).2 ↔
      pr ∈ oracle_matches xL yL xR yR op1 op2) := by
  simp only [iejoin_pipeline, List.getD_cons_zero, List.getD_cons_succ,
    series_slice_nulls]
  cases hstrict : op2.is_strict with
  | true =>
    rw [ie_join_impl_t_none_pairs_strict _ _ op1 op2 _ _ _ hstrict,
      zip_map_fst_snd]
    exact Iff.trans
      (kernel_mem_iff_core xL yL xR yR op1 op2 hyL _ _
        (dropped_sorted _ _) (dropped_nodup _ _)
        (fun g hg => dropped_not_none _ _ g hg)
        (fun g hg => dropped_mem_lt _ _ g hg)
        (fun g hg hnn => dropped_complete _ _ g hg hnn)
        (fun k hk => dropped_not_none _ _ k hk)
        (fun k hk => by
          have h := dropped_mem_lt _ _ k hk
          rwa [List.length_map] at h)
        (fun k hk hnn => dropped_complete _ _ k
          (by rw [List.length_map]; exact hk) hnn)
        (fun t => t)
        (fun s t hs ht hqp => l2_strict_iff op2 hstrict _ _
          (dropped_sorted _ _) (fun k hk => dropped_not_none _ _ k hk)
          s t hs ht hqp)
        pr)
      (mem_oracle xL yL xR yR op1 op2 pr.1 pr.2).symm
  | false =>
    rw [ie_join_impl_t_none_pairs_non_strict _ _ op1 op2 _ _ _ hstrict,
      zip_map_fst_snd]
    exact Iff.trans
      (kernel_mem_iff_core xL yL xR yR op1 op2 hyL _ _
        (dropped_sorted _ _) (dropped_nodup _ _)
        (fun g hg => dropped_not_none _ _ g hg)
        (fun g hg => dropped_mem_lt _ _ g hg)
        (fun g hg hnn => dropped_complete _ _ g hg hnn)
        (fun k hk => dropped_not_none _ _ k hk)
        (fun k hk => by
          have h := dropped_mem_lt _ _ k hk
          rwa [List.length_map] at h)
        (fun k hk hnn => dropped_complete _ _ k
          (by rw [List.length_map]; exact hk) hnn)
        (fun t => runEnd (values_buffer
          (((arg_sort (l1_descending op1) (xL ++ xR)).drop
            (null_count (xL ++ xR))).map (fun i => (yL ++ yR).getD i none)))
          ((arg_sort (l2_descending op2)
            (((arg_sort (l1_descending op1) (xL ++ xR)).drop
              (null_count (xL ++ xR))).map
              (fun i => (yL ++ yR).getD i none))).drop
            (null_count (((arg_sort (l1_descending op1) (xL ++ xR)).drop
              (null_count (xL ++ xR))).map
              (fun i => (yL ++ yR).getD i none)))) t)
        (fun s t hs ht _ => l2_non_strict_iff op2 hstrict _ _
          (dropped_sorted _ _) (fun k hk => dropped_not_none _ _ k hk)
          _ (fun k => values_buffer_getD _ k) s t hs ht)
        pr)
      (mem_oracle xL yL xR yR op1 op2 pr.1 pr.2).symm

theorem traverse_l2_non_strict_go_slice (yvals : List Int) (order : List Nat)
    (l1 : List L1Item) (op1 : InequalityOperator) (e : Int) :
    ∀ (rest : List Nat) (i run_start : Nat) (prev : Int) (bits : List Bool)
      (lids rids : List Nat) (cnt : Int),
      cnt = (lids.length : Int) → lids.length = rids.length →
      ∃ m : Nat,
        traverse_l2_non_strict_go yvals order l1 op1 (some e) rest i run_start
            prev bits lids rids cnt
          = ((traverse_l2_non_strict_go yvals order l1 op1 none rest i run_start
                prev bits lids rids cnt).1.take m,
             (traverse_l2_non_strict_go yvals order l1 op1 none rest i run_start
                prev bits lids rids cnt).2.take m) ∧
        min e ((traverse_l2_non_strict_go yvals order l1 op1 none rest i
            run_start prev bits lids rids cnt).1.length : Int) ≤ (m : Int) := by
  intro rest
  induction rest with
  | nil =>
    intro i run_start prev bits lids rids cnt hc hlr
    refine ⟨(lids ++ ((List.range' run_start (order.length - run_start)).flatMap
        (fun j => entryPairs l1 op1 bits (order.getD j 0))).map Prod.fst).length,
      ?_, ?_⟩
    · simp only [traverse_l2_non_strict_go, flush_run_eq]
      refine congrArg₂ Prod.mk ?_ ?_
      · rw [List.take_length]
      · have hlr2 : (lids ++ ((List.range' run_start (order.length - run_start)).flatMap
            (fun j => entryPairs l1 op1 bits (order.getD j 0))).map Prod.fst).length
            = (rids ++ ((List.range' run_start (order.length - run_start)).flatMap
              (fun j => entryPairs l1 op1 bits (order.getD j 0))).map Prod.snd).length := by
          simp [hlr]
        rw [hlr2, List.take_length]
    · simp only [traverse_l2_non_strict_go, flush_run_eq]
      exact min_le_right _ _
  | cons p t ih =>
    intro i run_start prev bits lids rids cnt hc hlr
    by_cases hb : 0 < i ∧ yvals.getD p 0 ≠ prev
    · rw [traverse_l2_non_strict_go_none_step_boundary yvals order l1 op1 p t i
        run_start prev bits lids rids cnt hb]
      simp only [traverse_l2_non_strict_go, flush_run_eq, if_pos hb]
      by_cases hbr : e ≤ cnt + (((List.range' run_start (i - run_start)).flatMap
          (fun j => entryPairs l1 op1 bits (order.getD j 0))).length : Int)
      · rw [if_pos (by simpa using hbr)]
        obtain ⟨E, hE⟩ := traverse_l2_non_strict_go_ext yvals order l1 op1 none t
          (i + 1) i (yvals.getD p 0) (mark_visited l1 p bits)
          (lids ++ ((List.range' run_start (i - run_start)).flatMap
            (fun j => entryPairs l1 op1 bits (order.getD j 0))).map Prod.fst)
          (rids ++ ((List.range' run_start (i - run_start)).flatMap
            (fun j => entryPairs l1 op1 bits (order.getD j 0))).map Prod.snd)
          (cnt + (((List.range' run_start (i - run_start)).flatMap
            (fun j => entryPairs l1 op1 bits (order.getD j 0))).length : Int))
        rw [hE]
        refine ⟨(lids ++ ((List.range' run_start (i - run_start)).flatMap
            (fun j => entryPairs l1 op1 bits (order.getD j 0))).map Prod.fst).length,
          ?_, ?_⟩
        · rw [List.take_left]
          have hlr2 : (lids ++ ((List.range' run_start (i - run_start)).flatMap
              (fun j => entryPairs l1 op1 bits (order.getD j 0))).map Prod.fst).length
              = (rids ++ ((List.range' run_start (i - run_start)).flatMap
                (fun j => entryPairs l1 op1 bits (order.getD j 0))).map Prod.snd).length := by
            simp [hlr]
          rw [hlr2, List.take_left]
        · have h1 : min e ((((lids ++ ((List.range' run_start (i - run_start)).flatMap
              (fun j => entryPairs l1 op1 bits (order.getD j 0))).map Prod.fst)
              ++ E.map Prod.fst).length : Int)) ≤ e := min_le_left _ _
          have h2 : ((lids ++ ((List.range' run_start (i - run_start)).flatMap
              (fun j => entryPairs l1 op1 bits (order.getD j 0))).map Prod.fst).length : Int)
              = cnt + (((List.range' run_start (i - run_start)).flatMap
                (fun j => entryPairs l1 op1 bits (order.getD j 0))).length : Int) := by
            simp [hc]
          omega
      · rw [if_neg (by simpa using hbr)]
        exact ih (i + 1) i (yvals.getD p 0) (mark_visited l1 p bits)
          (lids ++ ((List.range' run_start (i - run_start)).flatMap
            (fun j => entryPairs l1 op1 bits (order.getD j 0))).map Prod.fst)
          (rids ++ ((List.range' run_start (i - run_start)).flatMap
            (fun j => entryPairs l1 op1 bits (order.getD j 0))).map Prod.snd)
          (cnt + (((List.range' run_start (i - run_start)).flatMap
            (fun j => entryPairs l1 op1 bits (order.getD j 0))).length : Int))
          (by simp [hc]) (by simp [hlr])
    · rw [traverse_l2_non_strict_go_none_step_inside yvals order l1 op1 p t i
        run_start prev bits lids rids cnt hb]
      simp only [traverse_l2_non_strict_go, if_neg hb]
      exact ih (i + 1) run_start (yvals.getD p 0) (mark_visited l1 p bits)
        lids rids cnt hc hlr

theorem ie_join_impl_t_slice_neg (offset : Int) (len : Nat)
    (l1_order l2_order : List Nat) (op1 op2 : InequalityOperator)
    (x y_ordered : List Int) (lh : Nat) (h : offset < 0) :
    ie_join_impl_t (some (offset, len)) l1_order l2_order op1 op2 x y_ordered lh
      = ie_join_impl_t none l1_order l2_order op1 op2 x y_ordered lh := by
  simp only [ie_join_impl_t]
  rw [if_neg (by omega : ¬ 0 ≤ offset)]

theorem ie_join_impl_t_slice_pos (offset : Int) (len : Nat)
    (l1_order l2_order : List Nat) (op1 op2 : InequalityOperator)
    (x y_ordered : List Int) (lh : Nat) (h0 : 0 ≤ offset)
    (hb : offset + (len : Int) ≤ i64_max) :
    ∃ m : Nat,
      ie_join_impl_t (some (offset, len)) l1_order l2_order op1 op2 x y_ordered lh
        = ((ie_join_impl_t none l1_order l2_order op1 op2 x y_ordered lh).1.take m,
           (ie_join_impl_t none l1_order l2_order op1 op2 x y_ordered lh).2.take m) ∧
      min (offset + (len : Int))
          ((ie_join_impl_t none l1_order l2_order op1 op2 x
              y_ordered lh).1.length : Int)
        ≤ (m : Int) := by
  have hsat : saturating_add_unsigned offset len = offset + (len : Int) :=
    min_eq_left hb
  simp only [ie_join_impl_t, traverse_l2_array_non_strict, if_pos h0, hsat]
  by_cases hstrict : op2.is_strict = true
  · rw [if_pos hstrict, if_pos hstrict]
    exact traverse_l2_strict_slice
      (build_l1_array x l1_order lh) op1 (offset + (len : Int)) l2_order
      (FilteredBitArray.from_len_zeroed l1_order.length) [] [] 0 (by simp) rfl
  · rw [if_neg hstrict, if_neg hstrict]
    exact traverse_l2_non_strict_go_slice y_ordered l2_order
      (build_l1_array x l1_order lh) op1 (offset + (len : Int)) l2_order 0 0 0
      (FilteredBitArray.from_len_zeroed l1_order.length) [] [] 0 (by simp) rfl

theorem pipeline_slice_core (l1_order l2_order : List Nat)
    (op1 op2 : InequalityOperator) (x y_ordered : List Int) (lh : Nat)
    (offset : Int) (len : Nat)
    (hval : 0 ≤ offset → offset + (len : Int) ≤ i64_max) :
    (series_slice (ie_join_impl_t (some (offset, len)) l1_order l2_order op1 op2
        x y_ordered lh).1 offset len,
     series_slice (ie_join_impl_t (some (offset, len)) l1_order l2_order op1 op2
        x y_ordered lh).2 offset len)
    = (series_slice (ie_join_impl_t none l1_order l2_order op1 op2
        x y_ordered lh).1 offset len,
       series_slice (ie_join_impl_t none l1_order l2_order op1 op2
        x y_ordered lh).2 offset len) := by
  rcases le_or_lt 0 offset with h0 | h0
  · obtain ⟨m, heq, hbound⟩ := ie_join_impl_t_slice_pos offset len l1_order
      l2_order op1 op2 x y_ordered lh h0 (hval h0)
    obtain ⟨E, hE⟩ := ie_join_impl_t_ext none l1_order l2_order op1 op2
      x y_ordered lh
    have hlen2 : (ie_join_impl_t none l1_order l2_order op1 op2
        x y_ordered lh).2.length
        = (ie_join_impl_t none l1_order l2_order op1 op2
          x y_ordered lh).1.length := by
      rw [hE]
      simp
    rw [heq]
    refine congrArg₂ Prod.mk ?_ ?_
    · exact series_slice_take _ offset len m h0 (by omega)
    · refine series_slice_take _ offset len m h0 ?_
      rw [hlen2]
      omega
  · rw [ie_join_impl_t_slice_neg offset len l1_order l2_order op1 op2
      x y_ordered lh h0]

/-- C7: The driver derives the sort directions exactly as: L1 (the x axis)
is sorted descending iff `op1` is `>` or `>=`, and L2 (the y axis) is sorted
descending iff `op2` is `<` or `<=`, for every operator pair. -/
theorem iejoin_sort_directions (op1 op2 : InequalityOperator) :
    (l1_descending op1 = true ↔ (op1 = .Gt ∨ op1 = .GtEq)) ∧
    (l2_descending op2 = true ↔ (op2 = .Lt ∨ op2 = .LtEq)) := by
  cases op1 <;> cases op2 <;> exact ⟨by decide, by decide⟩

/-- C5: `build_l1_array`, given x values, a null-free permutation and the
left height nL, produces a vector of the permutation's length whose entry at
each position k is `L1Item` with `value = x[order[k]]` and
`row_index = order[k] + 1` when `order[k] < nL`, else
`-((order[k] - nL) + 1)`; every `row_index` is nonzero and positive exactly
when the source row is from Left. -/
theorem build_l1_array_spec (values : List Int) (order : List Nat) (nL : Nat)
    (k : Nat) (hk : k < order.length) :
    (build_l1_array values order nL).length = order.length ∧
    ((build_l1_array values order nL).getD k default).value
      = values.getD (order.getD k 0) 0 ∧
    ((build_l1_array values order nL).getD k default).row_index
      = (if order.getD k 0 < nL then (order.getD k 0 : Int) + 1
         else -((order.getD k 0 - nL + 1 : Nat) : Int)) ∧
    ((build_l1_array values order nL).getD k default).row_index ≠ 0 ∧
    (0 < ((build_l1_array values order nL).getD k default).row_index
      ↔ order.getD k 0 < nL) := by
  have hg := build_l1_array_getD values order nL k hk
  have hnn : (0 : Int) ≤ ((order.getD k 0 - nL : Nat) : Int) := Int.ofNat_nonneg _
  refine ⟨by simp [build_l1_array], by rw [hg], ?_, ?_, ?_⟩
  · rw [hg]
    by_cases h : order.getD k 0 < nL
    · simp only [if_pos h]
    · simp only [if_neg h]
      push_cast
      omega
  · rw [hg]
    by_cases h : order.getD k 0 < nL
    · simp only [if_pos h]
      omega
    · simp only [if_neg h]
      omega
  · rw [hg]
    by_cases h : order.getD k 0 < nL
    · simp only [if_pos h]
      constructor
      · intro _; exact h
      · intro _; omega
    · simp only [if_neg h]
      constructor
      · intro hc; omega
      · intro hc; exact absurd hc h

/-- C5 witness at a concrete input. -/
theorem build_l1_array_spec_witness :
    (build_l1_array [10, 20, 30] [2, 0, 1] 2).length = 3 ∧
    ((build_l1_array [10, 20, 30] [2, 0, 1] 2).getD 0 default).value = 30 ∧
    ((build_l1_array [10, 20, 30] [2, 0, 1] 2).getD 0 default).row_index
      = (if ([2, 0, 1].getD 0 0) < 2 then (([2, 0, 1].getD 0 0 : Nat) : Int) + 1
         else -((([2, 0, 1].getD 0 0) - 2 + 1 : Nat) : Int)) ∧
    ((build_l1_array [10, 20, 30] [2, 0, 1] 2).getD 0 default).row_index ≠ 0 ∧
    (0 < ((build_l1_array [10, 20, 30] [2, 0, 1] 2).getD 0 default).row_index
      ↔ ([2, 0, 1].getD 0 0) < 2) := by
  have h := build_l1_array_spec [10, 20, 30] [2, 0, 1] 2 0 (by decide)
  simpa using h

/-- C6: For every L1 array sorted in the direction derived from `op1`,
every in-bounds index i and every operator, `find_search_start_index`
returns an index j ≥ i such that no entry in [i, j) satisfies
`L1[i].value op1 L1[·].value` and the entry at j (when it exists) does
satisfy it — i.e. the smallest such index at or after i. -/
theorem find_search_start_index_spec (l1 : List L1Item) (i : Nat)
    (op1 : InequalityOperator) (_hs : L1Sorted op1 l1) (_hi : i < l1.length) :
    i ≤ find_search_start_index l1 i op1 ∧
    (∀ k, i ≤ k → k < find_search_start_index l1 i op1 →
      op1.apply (l1.getD i default).value (l1.getD k default).value = false) ∧
    (find_search_start_index l1 i op1 < l1.length →
      op1.apply (l1.getD i default).value
        (l1.getD (find_search_start_index l1 i op1) default).value = true) := by
  have core : ∀ p : L1Item → Bool,
      (∀ k, i ≤ k → k < partition_point p (l1.drop i) + i →
        p (l1.getD k default) = true) ∧
      (partition_point p (l1.drop i) + i < l1.length →
        p (l1.getD (partition_point p (l1.drop i) + i) default) = false) := by
    intro p
    constructor
    · intro k hik hk
      have h1 := (partition_point_spec p (l1.drop i) default).1 (k - i) (by omega)
      rw [getD_drop] at h1
      have he : i + (k - i) = k := by omega
      rwa [he] at h1
    · intro hlt
      have hd : partition_point p (l1.drop i) < (l1.drop i).length := by
        rw [List.length_drop]; omega
      have h2 := (partition_point_spec p (l1.drop i) default).2.1 hd
      rw [getD_drop] at h2
      have he : i + partition_point p (l1.drop i)
          = partition_point p (l1.drop i) + i := by omega
      rwa [he] at h2
  cases op1
  case Lt =>
    simp only [find_search_start_index]
    obtain ⟨g2, g3⟩ :=
      core (fun a => decide (a.value ≤ (l1.getD i default).value))
    refine ⟨by omega, fun k hik hk => ?_, fun hlt => ?_⟩
    · have h := g2 k hik hk
      simp only [decide_eq_true_eq] at h
      simp only [InequalityOperator.apply, decide_eq_false_iff_not]
      omega
    · have h := g3 hlt
      simp only [decide_eq_false_iff_not] at h
      simp only [InequalityOperator.apply, decide_eq_true_eq]
      omega
  case LtEq =>
    simp only [find_search_start_index]
    obtain ⟨g2, g3⟩ :=
      core (fun a => decide (a.value < (l1.getD i default).value))
    refine ⟨by omega, fun k hik hk => ?_, fun hlt => ?_⟩
    · have h := g2 k hik hk
      simp only [decide_eq_true_eq] at h
      simp only [InequalityOperator.apply, decide_eq_false_iff_not]
      omega
    · have h := g3 hlt
      simp only [decide_eq_false_iff_not] at h
      simp only [InequalityOperator.apply, decide_eq_true_eq]
      omega
  case Gt =>
    simp only [find_search_start_index]
    obtain ⟨g2, g3⟩ :=
      core (fun a => decide ((l1.getD i default).value ≤ a.value))
    refine ⟨by omega, fun k hik hk => ?_, fun hlt => ?_⟩
    · have h := g2 k hik hk
      simp only [decide_eq_true_eq] at h
      simp only [InequalityOperator.apply, decide_eq_false_iff_not]
      omega
    · have h := g3 hlt
      simp only [decide_eq_false_iff_not] at h
      simp only [InequalityOperator.apply, decide_eq_true_eq]
      omega
  case GtEq =>
    simp only [find_search_start_index]
    obtain ⟨g2, g3⟩ :=
      core (fun a => decide ((l1.getD i default).value < a.value))
    refine ⟨by omega, fun k hik hk => ?_, fun hlt => ?_⟩
    · have h := g2 k hik hk
      simp only [decide_eq_true_eq] at h
      simp only [InequalityOperator.apply, decide_eq_false_iff_not]
      omega
    · have h := g3 hlt
      simp only [decide_eq_false_iff_not] at h
      simp only [InequalityOperator.apply, decide_eq_true_eq]
      omega

/-- C6 witness at a concrete input. -/
theorem find_search_start_index_spec_witness :
    0 ≤ find_search_start_index
        [⟨1, 5⟩, ⟨-1, 5⟩, ⟨2, 7⟩] 0 InequalityOperator.Lt ∧
    (∀ k, 0 ≤ k → k < find_search_start_index
        [⟨1, 5⟩, ⟨-1, 5⟩, ⟨2, 7⟩] 0 InequalityOperator.Lt →
      InequalityOperator.Lt.apply
        (([⟨1, 5⟩, ⟨-1, 5⟩, ⟨2, 7⟩] : List L1Item).getD 0 default).value
        (([⟨1, 5⟩, ⟨-1, 5⟩, ⟨2, 7⟩] : List L1Item).getD k default).value = false) ∧
    (find_search_start_index [⟨1, 5⟩, ⟨-1, 5⟩, ⟨2, 7⟩] 0 InequalityOperator.Lt
        < ([⟨1, 5⟩, ⟨-1, 5⟩, ⟨2, 7⟩] : List L1Item).length →
      InequalityOperator.Lt.apply
        (([⟨1, 5⟩, ⟨-1, 5⟩, ⟨2, 7⟩] : List L1Item).getD 0 default).value
        (([⟨1, 5⟩, ⟨-1, 5⟩, ⟨2, 7⟩] : List L1Item).getD
          (find_search_start_index [⟨1, 5⟩, ⟨-1, 5⟩, ⟨2, 7⟩] 0
            InequalityOperator.Lt) default).value = true) :=
  find_search_start_index_spec [⟨1, 5⟩, ⟨-1, 5⟩, ⟨2, 7⟩] 0 InequalityOperator.Lt
    (by unfold L1Sorted L1ValueLe l1_descending; decide) (by decide)

/-- C3: `iejoin` returns the `ComputeError` naming the failing side iff
`selected_left` or `selected_right` does not contain exactly two
expressions, and in that case it fails before any other work: with valid
arity it always returns the pipeline result. -/
theorem iejoin_arity_spec (lh rh : Nat)
    (selected_left selected_right : List (List (Option Int)))
    (op1 op2 : InequalityOperator) (slice : Option (Int × Nat)) :
    (iejoin lh rh selected_left selected_right op1 op2 slice
        = .error left_arity_msg ↔ selected_left.length ≠ 2) ∧
    (selected_left.length = 2 →
      (iejoin lh rh selected_left selected_right op1 op2 slice
          = .error right_arity_msg ↔ selected_right.length ≠ 2)) ∧
    (selected_left.length = 2 → selected_right.length = 2 →
      iejoin lh rh selected_left selected_right op1 op2 slice
        = .ok (iejoin_pipeline lh selected_left selected_right op1 op2 slice)) := by
  have hmsg : left_arity_msg ≠ right_arity_msg := by decide
  have hmsg2 : right_arity_msg ≠ left_arity_msg := fun h => hmsg h.symm
  unfold iejoin
  by_cases hl : selected_left.length = 2
  · by_cases hr : selected_right.length = 2
    · simp [hl, hr]
    · simp [hl, hr, hmsg2]
  · simp [hl]

/-- C4: the two output index vectors of the kernel have equal length, and
each `find_matches_in_l1` call appends exactly `match_count` elements to
each vector, preserving the equality at every emission step. -/
theorem kernel_parallel_output_lengths :
    (∀ (slice : Option (Int × Nat)) (l1_order l2_order : List Nat)
        (op1 op2 : InequalityOperator) (x y_ordered : List Int) (lh : Nat),
      (ie_join_impl_t slice l1_order l2_order op1 op2 x y_ordered lh).1.length
        = (ie_join_impl_t slice l1_order l2_order op1 op2 x y_ordered lh).2.length) ∧
    (∀ (l1 : List L1Item) (i : Nat) (ri : Int) (bits : List Bool)
        (op1 : InequalityOperator) (lids rids : List Nat),
      lids.length = rids.length →
      (find_matches_in_l1 l1 i ri bits op1 lids rids).1.length
          = (find_matches_in_l1 l1 i ri bits op1 lids rids).2.1.length ∧
      ((find_matches_in_l1 l1 i ri bits op1 lids rids).1.length : Int)
          = (lids.length : Int)
              + (find_matches_in_l1 l1 i ri bits op1 lids rids).2.2) := by
  constructor
  · intro slice l1_order l2_order op1 op2 x y_ordered lh
    obtain ⟨E, hE⟩ :=
      ie_join_impl_t_ext slice l1_order l2_order op1 op2 x y_ordered lh
    rw [hE]
    simp
  · intro l1 i ri bits op1 lids rids hlen
    rw [find_matches_in_l1_eq]
    constructor
    · simp [hlen]
    · simp

/-- C4 witness at a concrete input. -/
theorem kernel_parallel_output_lengths_witness :
    (find_matches_in_l1 [⟨1, 0⟩] 0 1 [true] InequalityOperator.Lt [] []).1.length
        = (find_matches_in_l1 [⟨1, 0⟩] 0 1 [true]
            InequalityOperator.Lt [] []).2.1.length ∧
    ((find_matches_in_l1 [⟨1, 0⟩] 0 1 [true]
        InequalityOperator.Lt [] []).1.length : Int)
        = (([] : List Nat).length : Int)
            + (find_matches_in_l1 [⟨1, 0⟩] 0 1 [true]
                InequalityOperator.Lt [] []).2.2 :=
  kernel_parallel_output_lengths.2 [⟨1, 0⟩] 0 1 [true]
    InequalityOperator.Lt [] [] rfl

theorem set_bit_getD_mono (bits : List Bool) (i k : Nat)
    (h : bits.getD k false = true) : (set_bit bits i).getD k false = true := by
  rw [getD_set_bit]
  split
  · rfl
  · exact h

/-- C9: during a kernel invocation the set of set bits only grows: each of
`process_entry` and `mark_visited` either sets the single bit at its L1
index or leaves the bit array unchanged, and neither ever clears a set
bit (`process_lhs_entry` takes the bit array immutably and cannot change
it). -/
theorem visited_bits_monotone (l1 : List L1Item) (i : Nat) (bits : List Bool)
    (op1 : InequalityOperator) (lids rids : List Nat) :
    ((process_entry l1 i bits op1 lids rids).1 = bits ∨
      (process_entry l1 i bits op1 lids rids).1 = set_bit bits i) ∧
    (mark_visited l1 i bits = bits ∨ mark_visited l1 i bits = set_bit bits i) ∧
    (∀ k, bits.getD k false = true →
      (process_entry l1 i bits op1 lids rids).1.getD k false = true) ∧
    (∀ k, bits.getD k false = true →
      (mark_visited l1 i bits).getD k false = true) := by
  rw [process_entry_eq]
  unfold stepBits mark_visited
  by_cases h : 0 < (l1.getD i default).row_index
  · rw [if_pos h]
    exact ⟨Or.inl rfl, Or.inl rfl, fun k hk => hk, fun k hk => hk⟩
  · rw [if_neg h]
    exact ⟨Or.inr rfl, Or.inr rfl,
      fun k hk => set_bit_getD_mono bits i k hk,
      fun k hk => set_bit_getD_mono bits i k hk⟩

/-- C9 witness at a concrete input. -/
theorem visited_bits_monotone_witness :
    (process_entry [⟨-1, 5⟩] 0 [true] InequalityOperator.Lt [] []).1.getD 0 false
      = true :=
  (visited_bits_monotone [⟨-1, 5⟩] 0 [true]
    InequalityOperator.Lt [] []).2.2.1 0 (by decide)

/-- C10: in every reachable state of a kernel invocation every set bit of
the visited bit array is at an L1 index holding a right-hand-side row
(negative `row_index`): the initial all-clear array satisfies this, every
bit-array mutation (`process_entry`, `mark_visited`) preserves it given the
nonzero-row-index property of L1 arrays, and consequently every set bit
scanned by `find_matches_in_l1` has `row_index < 0`. -/
theorem visited_bits_right_side (l1 : List L1Item) (op1 : InequalityOperator) :
    (∀ n : Nat, BitsValid l1 (FilteredBitArray.from_len_zeroed n)) ∧
    (∀ (i : Nat) (bits : List Bool) (lids rids : List Nat),
      (∀ m ∈ l1, m.row_index ≠ 0) → bits.length ≤ l1.length →
      BitsValid l1 bits →
      BitsValid l1 (process_entry l1 i bits op1 lids rids).1 ∧
      BitsValid l1 (mark_visited l1 i bits)) ∧
    (∀ (bits : List Bool) (start : Nat), BitsValid l1 bits →
      ∀ b ∈ setBitsFrom bits start, (l1.getD b default).row_index < 0) := by
  refine ⟨?_, ?_, ?_⟩
  · intro n k hk
    exfalso
    unfold FilteredBitArray.from_len_zeroed at hk
    by_cases hkn : k < n
    · rw [List.getD_eq_getElem _ _ (by simpa using hkn)] at hk
      simp at hk
    · rw [List.getD_eq_default _ _ (by simpa using hkn)] at hk
      exact Bool.false_ne_true hk
  · intro i bits lids rids hnz hlen hv
    have hpres : ¬ 0 < (l1.getD i default).row_index →
        BitsValid l1 (set_bit bits i) := by
      intro hneg
      unfold BitsValid
      intro k hk
      rw [getD_set_bit] at hk
      by_cases hki : k = i ∧ i < bits.length
      · obtain ⟨hk1, hk2⟩ := hki
        subst hk1
        have hil : k < l1.length := by omega
        have hmem : l1.getD k default ∈ l1 := by
          rw [List.getD_eq_getElem _ _ hil]
          exact List.getElem_mem hil
        have hne := hnz _ hmem
        omega
      · rw [if_neg hki] at hk
        exact hv k hk
    constructor
    · rw [process_entry_eq]
      unfold stepBits
      split
      · exact hv
      · next hneg => exact hpres hneg
    · unfold mark_visited
      split
      · exact hv
      · next hneg => exact hpres hneg
  · intro bits start hv b hb
    rw [mem_setBitsFrom] at hb
    exact hv b hb.2.2

/-- C2: for every input and every slice `(offset, len)` (with
`offset + len` representable in `i64`, as in the source), running the
driver pipeline with `slice = some (offset, len)` returns exactly the rows
obtained by running it with `slice = none` and slicing the result, both for
`offset ≥ 0` (where the kernel may early-exit once `match_count` reaches
`offset + len`) and for `offset < 0`. -/
theorem iejoin_slice_equivalence (lh : Nat)
    (selected_left selected_right : List (List (Option Int)))
    (op1 op2 : InequalityOperator) (offset : Int) (len : Nat)
    (hval : 0 ≤ offset → offset + (len : Int) ≤ i64_max) :
    iejoin_pipeline lh selected_left selected_right op1 op2 (some (offset, len))
      = (series_slice (iejoin_pipeline lh selected_left selected_right
            op1 op2 none).1 offset len,
         series_slice (iejoin_pipeline lh selected_left selected_right
            op1 op2 none).2 offset len) := by
  simp only [iejoin_pipeline]
  exact pipeline_slice_core _ _ op1 op2 _ _ lh offset len hval

/-- C2 witness at a concrete input (scenario S5 of the spec). -/
theorem iejoin_slice_equivalence_witness :
    iejoin_pipeline 3 [[some 1, some 2, some 3], [some 10, some 20, some 30]]
        [[some 2, some 3, some 4], [some 15, some 25, some 35]]
        InequalityOperator.Lt InequalityOperator.Lt (some (1, 3))
      = (series_slice (iejoin_pipeline 3
            [[some 1, some 2, some 3], [some 10, some 20, some 30]]
            [[some 2, some 3, some 4], [some 15, some 25, some 35]]
            InequalityOperator.Lt InequalityOperator.Lt none).1 1 3,
         series_slice (iejoin_pipeline 3
            [[some 1, some 2, some 3], [some 10, some 20, some 30]]
            [[some 2, some 3, some 4], [some 15, some 25, some 35]]
            InequalityOperator.Lt InequalityOperator.Lt none).2 1 3) :=
  iejoin_slice_equivalence 3
    [[some 1, some 2, some 3], [some 10, some 20, some 30]]
    [[some 2, some 3, some 4], [some 15, some 25, some 35]]
    InequalityOperator.Lt InequalityOperator.Lt 1 3 (by decide)

/-- C8: no row whose selected x or y value is null ever appears in an
emitted (left_row, right_row) pair: the driver sorts with nulls first,
drops exactly `null_count` leading positions from each of the L1 and L2
permutations, and the kernel only emits rows reachable through those
null-free permutations.  Every emitted pair moreover lies within the two
table heights. -/
theorem null_rows_never_matched (xL yL xR yR : List (Option Int))
    (op1 op2 : InequalityOperator)
    (hyL : yL.length = xL.length) (_hyR : yR.length = xR.length)
    (pr : Nat × Nat)
    (hpr : pr ∈ (iejoin_pipeline xL.length [xL, yL] [xR, yR]
        op1 op2 none).1.zip
        (iejoin_pipeline xL.length [xL, yL] [xR, yR] op1 op2 none).2) :
    pr.1 < xL.length ∧ xL.getD pr.1 none ≠ none ∧ yL.getD pr.1 none ≠ none ∧
    pr.2 < xR.length ∧ xR.getD pr.2 none ≠ none ∧ yR.getD pr.2 none ≠ none := by
  simp only [iejoin_pipeline, List.getD_cons_zero, List.getD_cons_succ,
    series_slice_nulls] at hpr
  have hl1mem : ∀ g ∈ (arg_sort (l1_descending op1) (xL ++ xR)).drop
      (null_count (xL ++ xR)), (xL ++ xR).getD g none ≠ none :=
    fun g hg => dropped_not_none _ _ g hg
  have hl1lt : ∀ g ∈ (arg_sort (l1_descending op1) (xL ++ xR)).drop
      (null_count (xL ++ xR)), g < (xL ++ xR).length :=
    fun g hg => dropped_mem_lt _ _ g hg
  have hl2mem : ∀ k ∈ (arg_sort (l2_descending op2)
      (((arg_sort (l1_descending op1) (xL ++ xR)).drop
        (null_count (xL ++ xR))).map (fun i => (yL ++ yR).getD i none))).drop
      (null_count (((arg_sort (l1_descending op1) (xL ++ xR)).drop
        (null_count (xL ++ xR))).map (fun i => (yL ++ yR).getD i none))),
      k < ((arg_sort (l1_descending op1) (xL ++ xR)).drop
        (null_count (xL ++ xR))).length := by
    intro k hk
    have h := dropped_mem_lt _ _ k hk
    rw [List.length_map] at h
    exact h
  have hl2y : ∀ k ∈ (arg_sort (l2_descending op2)
      (((arg_sort (l1_descending op1) (xL ++ xR)).drop
        (null_count (xL ++ xR))).map (fun i => (yL ++ yR).getD i none))).drop
      (null_count (((arg_sort (l1_descending op1) (xL ++ xR)).drop
        (null_count (xL ++ xR))).map (fun i => (yL ++ yR).getD i none))),
      (yL ++ yR).getD (((arg_sort (l1_descending op1) (xL ++ xR)).drop
        (null_count (xL ++ xR))).getD k 0) none ≠ none := by
    intro k hk
    have h1 := dropped_not_none _ _ k hk
    rw [map_getD_getD _ _ _ (hl2mem k hk)] at h1
    exact h1
  cases hstrict : op2.is_strict with
  | true =>
    rw [ie_join_impl_t_none_pairs_strict _ _ op1 op2 _ _ _ hstrict,
      zip_map_fst_snd] at hpr
    obtain ⟨t, ht, hmem⟩ := (mem_flat_entryPairs _ op1 _ _ (fun t => t) pr).mp hpr
    rw [mem_entryPairs] at hmem
    obtain ⟨hpos, q, hstart, hqlen, hqbit, hpre⟩ := hmem
    rw [processedBits_getD] at hqbit
    rcases hqbit with hz | ⟨hqmem, hqneg, hqlt⟩
    · rw [from_len_zeroed_getD] at hz
      exact absurd hz (by simp)
    · have hp := getD_mem_of_lt _ 0 t ht
      have hq := List.mem_of_mem_take hqmem
      have hres := emitted_pair_analysis xL yL xR yR hyL _ hl1mem hl1lt _
        hl2mem hl2y _ q hp hq hpos hqneg
      rw [hpre]
      exact hres
  | false =>
    rw [ie_join_impl_t_none_pairs_non_strict _ _ op1 op2 _ _ _ hstrict,
      zip_map_fst_snd] at hpr
    obtain ⟨t, ht, hmem⟩ := (mem_flat_entryPairs _ op1 _ _
      (runEnd (values_buffer (((arg_sort (l1_descending op1) (xL ++ xR)).drop
        (null_count (xL ++ xR))).map (fun i => (yL ++ yR).getD i none)))
        ((arg_sort (l2_descending op2)
          (((arg_sort (l1_descending op1) (xL ++ xR)).drop
            (null_count (xL ++ xR))).map
            (fun i => (yL ++ yR).getD i none))).drop
          (null_count (((arg_sort (l1_descending op1) (xL ++ xR)).drop
            (null_count (xL ++ xR))).map
            (fun i => (yL ++ yR).getD i none))))) pr).mp hpr
    rw [mem_entryPairs] at hmem
    obtain ⟨hpos, q, hstart, hqlen, hqbit, hpre⟩ := hmem
    rw [processedBits_getD] at hqbit
    rcases hqbit with hz | ⟨hqmem, hqneg, hqlt⟩
    · rw [from_len_zeroed_getD] at hz
      exact absurd hz (by simp)
    · have hp := getD_mem_of_lt _ 0 t ht
      have hq := List.mem_of_mem_take hqmem
      have hres := emitted_pair_analysis xL yL xR yR hyL _ hl1mem hl1lt _
        hl2mem hl2y _ q hp hq hpos hqneg
      rw [hpre]
      exact hres

/-- C8 witness at a concrete input containing null rows. -/
theorem null_rows_never_matched_witness :
    ((0, 0) : Nat × Nat).1 < ([some 1, none] : List (Option Int)).length ∧
    ([some 1, none] : List (Option Int)).getD ((0, 0) : Nat × Nat).1 none
      ≠ none ∧
    ([some 5, some 6] : List (Option Int)).getD ((0, 0) : Nat × Nat).1 none
      ≠ none ∧
    ((0, 0) : Nat × Nat).2 < ([some 1] : List (Option Int)).length ∧
    ([some 1] : List (Option Int)).getD ((0, 0) : Nat × Nat).2 none ≠ none ∧
    ([some 5] : List (Option Int)).getD ((0, 0) : Nat × Nat).2 none ≠ none :=
  null_rows_never_matched [some 1, none] [some 5, some 6] [some 1] [some 5]
    InequalityOperator.LtEq InequalityOperator.LtEq rfl rfl (0, 0) (by decide)

/-- C10 witness at a concrete input. -/
theorem visited_bits_right_side_witness :
    BitsValid [⟨1, 5⟩, ⟨-1, 5⟩]
      (process_entry [⟨1, 5⟩, ⟨-1, 5⟩] 1 [false, false]
        InequalityOperator.Lt [] []).1 ∧
    BitsValid [⟨1, 5⟩, ⟨-1, 5⟩]
      (mark_visited [⟨1, 5⟩, ⟨-1, 5⟩] 1 [false, false]) :=
  (visited_bits_right_side [⟨1, 5⟩, ⟨-1, 5⟩] InequalityOperator.Lt).2.1
    1 [false, false] [] [] (by decide) (by decide)
    (by
      intro k hk
      exfalso
      rcases k with _ | k
      · simp [List.getD] at hk
      · rcases k with _ | k
        · simp [List.getD] at hk
        · rw [List.getD_eq_default _ _ (by simp)] at hk
          exact Bool.false_ne_true hk)

/-- C3 witness at a concrete input. -/
theorem iejoin_arity_spec_witness :
    (iejoin 1 1 [[some 1], [some 2]] [[some 1], [some 2]]
        InequalityOperator.Lt InequalityOperator.Lt none
        = .error left_arity_msg ↔ ([[some 1], [some 2]] :
          List (List (Option Int))).length ≠ 2) ∧
    (([[some 1], [some 2]] : List (List (Option Int))).length = 2 →
      (iejoin 1 1 [[some 1], [some 2]] [[some 1], [some 2]]
          InequalityOperator.Lt InequalityOperator.Lt none
          = .error right_arity_msg ↔ ([[some 1], [some 2]] :
            List (List (Option Int))).length ≠ 2)) ∧
    (([[some 1], [some 2]] : List (List (Option Int))).length = 2 →
      ([[some 1], [some 2]] : List (List (Option Int))).length = 2 →
      iejoin 1 1 [[some 1], [some 2]] [[some 1], [some 2]]
          InequalityOperator.Lt InequalityOperator.Lt none
        = .ok (iejoin_pipeline 1 [[some 1], [some 2]] [[some 1], [some 2]]
            InequalityOperator.Lt InequalityOperator.Lt none)) :=
  iejoin_arity_spec 1 1 [[some 1], [some 2]] [[some 1], [some 2]]
    InequalityOperator.Lt InequalityOperator.Lt none

/-- C1: with no slice, the multiset of (left_row, right_row) index pairs
produced by the IE-Join kernel pipeline equals the multiset computed by the
naive nested-loop oracle over the non-null rows, for every operator pair
op1, op2 in \x7b <, <=, >, >= \x7d. -/
theorem iejoin_matches_oracle (xL yL xR yR : List (Option Int))
    (op1 op2 : InequalityOperator)
    (hyL : yL.length = xL.length) (_hyR : yR.length = xR.length) :
    (((iejoin_pipeline xL.length [xL, yL] [xR, yR] op1 op2 none).1.zip
        (iejoin_pipeline xL.length [xL, yL] [xR, yR] op1 op2 none).2 :
        List (Nat × Nat)) : Multiset (Nat × Nat))
      = ((oracle_matches xL yL xR yR op1 op2 : List (Nat × Nat)) :
        Multiset (Nat × Nat)) := by
  rw [Multiset.coe_eq_coe]
  exact (List.perm_ext_iff_of_nodup (pipeline_zip_nodup xL yL xR yR op1 op2)
    (oracle_nodup xL yL xR yR op1 op2)).mpr
    (fun pr => pipeline_mem_iff xL yL xR yR op1 op2 hyL pr)

/-- C1 witness at the concrete scenario S3 of the spec. -/
theorem iejoin_matches_oracle_witness :
    ([some 5, some 5, some 6] : List (Option Int)).length
      = ([some 1, some 1, some 2] : List (Option Int)).length ∧
    ([some 5, some 6] : List (Option Int)).length
      = ([some 1, some 2] : List (Option Int)).length ∧
    (((iejoin_pipeline ([some 1, some 1, some 2] : List (Option Int)).length
        [[some 1, some 1, some 2], [some 5, some 5, some 6]]
        [[some 1, some 2], [some 5, some 6]]
        InequalityOperator.LtEq InequalityOperator.LtEq none).1.zip
        (iejoin_pipeline ([some 1, some 1, some 2] : List (Option Int)).length
        [[some 1, some 1, some 2], [some 5, some 5, some 6]]
        [[some 1, some 2], [some 5, some 6]]
        InequalityOperator.LtEq InequalityOperator.LtEq none).2 :
        List (Nat × Nat)) : Multiset (Nat × Nat))
      = ((oracle_matches [some 1, some 1, some 2] [some 5, some 5, some 6]
          [some 1, some 2] [some 5, some 6]
          InequalityOperator.LtEq InequalityOperator.LtEq :
          List (Nat × Nat)) : Multiset (Nat × Nat)) :=
  ⟨rfl, rfl,
    iejoin_matches_oracle [some 1, some 1, some 2] [some 5, some 5, some 6]
      [some 1, some 2] [some 5, some 6]
      InequalityOperator.LtEq InequalityOperator.LtEq rfl rfl⟩
